import Mathlib

/-!
Shallow embedding of `src/reverse-iterable-map.js` (the `ReverseIterableMap`
class): a hash-indexed map whose entries additionally form a doubly-linked
chain recording insertion order, together with the reverse-iterable iterator
objects produced by `_iterableIterator`.

Modelling choices:

* JavaScript values are modelled by the inductive type `JSVal`, with an
  explicit `undef` constructor for `undefined` (the absence sentinel the
  source compares against in `next()` and returns from `get()`).
  Key equality is structural decidable equality, which agrees with the
  `SameValueZero` semantics of the built-in `Map` on the primitive keys
  used throughout.
* In the source, the index is `Map<K, Node>` and the chain links
  (`prevNode` / `nextNode`) are object references to nodes that are always
  registered in the index under their own `key` field.  We therefore
  address nodes by their key: the index is an association list
  `List (JSVal × MapNode)` with pairwise-distinct keys (as the built-in
  `Map` guarantees), and a link is the `Option` of the linked node's key
  (`none` standing for `null`).  A mutation of a node object reached
  through an alias (`node.prevNode.nextNode = …`) becomes a functional
  update of the index entry registered under that node's key.
-/

set_option autoImplicit false

/-- A JavaScript value: `undefined`, a number (integers suffice for the
behaviours under study), a string, a boolean, or an array. -/
inductive JSVal where
  | undef : JSVal
  | num : Int → JSVal
  | str : String → JSVal
  | bool : Bool → JSVal
  | arr : List JSVal → JSVal

mutual

/-- Structural equality on `JSVal` (the `===` / `SameValueZero` test, on
the value shapes modelled here). -/
def JSVal.beq : JSVal → JSVal → Bool
  | .undef, .undef => true
  | .num a, .num b => a == b
  | .str a, .str b => a == b
  | .bool a, .bool b => a == b
  | .arr xs, .arr ys => JSVal.beqList xs ys
  | _, _ => false

/-- Elementwise `JSVal.beq` on lists. -/
def JSVal.beqList : List JSVal → List JSVal → Bool
  | [], [] => true
  | x :: xs, y :: ys => JSVal.beq x y && JSVal.beqList xs ys
  | _, _ => false

end

mutual

theorem JSVal.beq_iff : ∀ a b : JSVal, JSVal.beq a b = true ↔ a = b
  | .undef, .undef => by simp [JSVal.beq]
  | .undef, .num _ => by simp [JSVal.beq]
  | .undef, .str _ => by simp [JSVal.beq]
  | .undef, .bool _ => by simp [JSVal.beq]
  | .undef, .arr _ => by simp [JSVal.beq]
  | .num _, .undef => by simp [JSVal.beq]
  | .num a, .num b => by simp [JSVal.beq]
  | .num _, .str _ => by simp [JSVal.beq]
  | .num _, .bool _ => by simp [JSVal.beq]
  | .num _, .arr _ => by simp [JSVal.beq]
  | .str _, .undef => by simp [JSVal.beq]
  | .str _, .num _ => by simp [JSVal.beq]
  | .str a, .str b => by simp [JSVal.beq]
  | .str _, .bool _ => by simp [JSVal.beq]
  | .str _, .arr _ => by simp [JSVal.beq]
  | .bool _, .undef => by simp [JSVal.beq]
  | .bool _, .num _ => by simp [JSVal.beq]
  | .bool _, .str _ => by simp [JSVal.beq]
  | .bool a, .bool b => by simp [JSVal.beq]
  | .bool _, .arr _ => by simp [JSVal.beq]
  | .arr _, .undef => by simp [JSVal.beq]
  | .arr _, .num _ => by simp [JSVal.beq]
  | .arr _, .str _ => by simp [JSVal.beq]
  | .arr _, .bool _ => by simp [JSVal.beq]
  | .arr xs, .arr ys => by simp [JSVal.beq, JSVal.beqList_iff xs ys]

theorem JSVal.beqList_iff : ∀ xs ys : List JSVal, JSVal.beqList xs ys = true ↔ xs = ys
  | [], [] => by simp [JSVal.beqList]
  | [], _ :: _ => by simp [JSVal.beqList]
  | _ :: _, [] => by simp [JSVal.beqList]
  | x :: xs, y :: ys => by
    simp [JSVal.beqList, JSVal.beq_iff x y, JSVal.beqList_iff xs ys]

end

instance : DecidableEq JSVal :=
  fun a b => decidable_of_iff _ (JSVal.beq_iff a b)

/-- `Array.isArray` from the constructor's element check. -/
def JSVal.isArray : JSVal → Bool
  | .arr _ => true
  | _ => false

/-- Indexing a JS array: `a[i]` is the element when present and `undefined`
when out of range (used for `array[0]` / `array[1]` in the constructor). -/
def JSVal.idx : JSVal → Nat → JSVal
  | .arr xs, i => xs.getD i JSVal.undef
  | _, _ => JSVal.undef

/-- One `ReverseIterableMapNode`: a `[key, value]` pair plus the two
structural links, each represented by the linked node's key (or `none`
for `null`). -/
structure MapNode where
  key : JSVal
  value : JSVal
  nextNode : Option JSVal
  prevNode : Option JSVal
deriving DecidableEq

/-- The index: an insertion-agnostic association list from key to node.
Its own order is never observed by the class (all traversal goes through
the chain links), so a plain list with distinct keys models `Map`. -/
abbrev NodeMap := List (JSVal × MapNode)

/-- `Map.prototype.get` on the index. -/
def mapGet (mp : NodeMap) (k : JSVal) : Option MapNode :=
  match mp with
  | [] => none
  | (k', n) :: rest => if k' = k then some n else mapGet rest k

/-- `Map.prototype.set` on the index: replace in place when the key is
present, append otherwise. -/
def mapPut (mp : NodeMap) (k : JSVal) (n : MapNode) : NodeMap :=
  match mp with
  | [] => [(k, n)]
  | (k', n') :: rest => if k' = k then (k, n) :: rest else (k', n') :: mapPut rest k n

/-- `Map.prototype.delete` on the index: the resulting list and the
returned boolean (whether an entry existed and was removed). -/
def mapDrop (mp : NodeMap) (k : JSVal) : NodeMap × Bool :=
  match mp with
  | [] => ([], false)
  | (k', n') :: rest =>
    if k' = k then (rest, true)
    else
      let r := mapDrop rest k
      ((k', n') :: r.1, r.2)

/-- Mutating one field of the node object registered under key `k`
(reached in the source through an object reference): apply `f` to that
node, leave every other entry alone. -/
def updEntry (f : MapNode → MapNode) (k : JSVal) : NodeMap → NodeMap
  | [] => []
  | (k', n) :: rest =>
    if k' = k then (k', f n) :: updEntry f k rest else (k', n) :: updEntry f k rest

/-- Mutating `node.nextNode` through a reference: update the `nextNode`
field of the node registered under key `k`. -/
def setNextLink (mp : NodeMap) (k : JSVal) (nxt : Option JSVal) : NodeMap :=
  updEntry (fun n => { n with nextNode := nxt }) k mp

/-- Mutating `node.prevNode` through a reference: update the `prevNode`
field of the node registered under key `k`. -/
def setPrevLink (mp : NodeMap) (k : JSVal) (prv : Option JSVal) : NodeMap :=
  updEntry (fun n => { n with prevNode := prv }) k mp

/-- Mutating `node.value` through a reference (`_updateExistingNode`). -/
def setValueAt (mp : NodeMap) (k : JSVal) (v : JSVal) : NodeMap :=
  updEntry (fun n => { n with value := v }) k mp

/-- The `ReverseIterableMap` instance state: the index `_map` and the two
endpoint references (keys of the endpoint nodes, `none` for `null`). -/
structure ReverseIterableMap where
  _map : NodeMap
  _firstNode : Option JSVal
  _lastNode : Option JSVal
deriving DecidableEq

namespace ReverseIterableMap

/-- `new ReverseIterableMap()` with no argument (also the state after
`clear()`). -/
def empty : ReverseIterableMap := ⟨[], none, none⟩

/-- `get size()`: `this._map.size`. -/
def size (m : ReverseIterableMap) : Nat := m._map.length

/-- `clear()`: empty the index and null both endpoint references. -/
def clear (_m : ReverseIterableMap) : ReverseIterableMap := ⟨[], none, none⟩

/-- `has(key)`: `this._map.has(key)`. -/
def has (m : ReverseIterableMap) (key : JSVal) : Bool :=
  (mapGet m._map key).isSome

/-- `get(key)`: the node's value when present, `undefined` otherwise. -/
def get (m : ReverseIterableMap) (key : JSVal) : JSVal :=
  match mapGet m._map key with
  | some node => node.value
  | none => JSVal.undef

/-- `_updateExistingNode(key, value)`: overwrite the node's `value` in
place when one exists; returns the updated state and the boolean result. -/
def _updateExistingNode (m : ReverseIterableMap) (key value : JSVal) :
    ReverseIterableMap × Bool :=
  match mapGet m._map key with
  | some _ => ({ m with _map := setValueAt m._map key value }, true)
  | none => (m, false)

/-- `set(key, value)` (append-insert), line by line: early return on
update-in-place; otherwise create the node with null links, register it,
link it behind the current `_lastNode` when there is one, set
`_firstNode` when the map was empty, and make it the new `_lastNode`. -/
def set (m : ReverseIterableMap) (key value : JSVal) : ReverseIterableMap :=
  let upd := m._updateExistingNode key value
  if upd.2 then upd.1
  else
    let node : MapNode := { key := key, value := value, nextNode := none, prevNode := none }
    let m1 : NodeMap := mapPut m._map key node
    -- if (this._lastNode !== null) { node.prevNode = this._lastNode; this._lastNode.nextNode = node }
    let m2 : NodeMap :=
      match m._lastNode with
      | some lk => setNextLink (setPrevLink m1 key (some lk)) lk (some key)
      | none => m1
    { _map := m2
      -- if (this._firstNode === null) { this._firstNode = node }
      _firstNode := match m._firstNode with | none => some key | some f => some f
      -- this._lastNode = node
      _lastNode := some key }

/-- `setFirst(key, value)` (prepend-insert), symmetric to `set`. -/
def setFirst (m : ReverseIterableMap) (key value : JSVal) : ReverseIterableMap :=
  let upd := m._updateExistingNode key value
  if upd.2 then upd.1
  else
    let node : MapNode := { key := key, value := value, nextNode := none, prevNode := none }
    let m1 : NodeMap := mapPut m._map key node
    -- if (this._firstNode !== null) { node.nextNode = this._firstNode; this._firstNode.prevNode = node }
    let m2 : NodeMap :=
      match m._firstNode with
      | some fk => setPrevLink (setNextLink m1 key (some fk)) fk (some key)
      | none => m1
    { _map := m2
      -- this._firstNode = node
      _firstNode := some key
      -- if (this._lastNode === null) { this._lastNode = node }
      _lastNode := match m._lastNode with | none => some key | some l => some l }

/-- `delete(key)`: the four-way unlink case split on the node's links,
then `this._map.delete(key)`; returns the new state and the boolean. -/
def delete (m : ReverseIterableMap) (key : JSVal) : ReverseIterableMap × Bool :=
  match mapGet m._map key with
  | none => (m, false)
  | some node =>
    let m' : ReverseIterableMap :=
      match node.prevNode, node.nextNode with
      | some pk, some nk =>
        -- node is in the middle: splice it out, joining the neighbours.
        { m with _map := setPrevLink (setNextLink m._map pk (some nk)) nk (some pk) }
      | some pk, none =>
        -- node is the last node: the previous node becomes the new tail.
        { m with _map := setNextLink m._map pk none, _lastNode := some pk }
      | none, some nk =>
        -- node is the first node: the next node becomes the new head.
        { m with _map := setPrevLink m._map nk none, _firstNode := some nk }
      | none, none =>
        -- node is the sole entry: both endpoint references are unset.
        { m with _firstNode := none, _lastNode := none }
    let dropped := mapDrop m'._map key
    ({ m' with _map := dropped.1 }, dropped.2)

/-- The constructor's `for (const array of iterable)` loop, one element at
a time: each element must satisfy `Array.isArray`, otherwise a `TypeError`
with this message is thrown (modelled as the `Except.error` payload); an
array element inserts `array[0] ↦ array[1]` via `set`. -/
def addAll (m : ReverseIterableMap) : List JSVal → Except String ReverseIterableMap
  | [] => .ok m
  | elt :: rest =>
    if elt.isArray then (m.set (elt.idx 0) (elt.idx 1)).addAll rest
    else .error "iterable for Map should have array-like objects"

/-- Bulk construction, `new ReverseIterableMap(iterable)`: start from the
empty state and run the constructor loop. -/
def fromIterable (l : List JSVal) : Except String ReverseIterableMap :=
  empty.addAll l

end ReverseIterableMap

/-- Which `getIteratorValue` closure an iterator carries: the `[key, value]`
pair projection (`entries` / `iteratorFor`), the key projection (`keys`),
or the value projection (`values`). -/
inductive Proj where
  | pairs : Proj
  | keysOnly : Proj
  | valuesOnly : Proj
deriving DecidableEq

/-- `getIteratorValue(node)` for each of the three projections. -/
def projVal : Proj → MapNode → JSVal
  | .pairs, n => .arr [n.key, n.value]
  | .keysOnly, n => n.key
  | .valuesOnly, n => n.value

/-- The closure state of an object returned by `_iterableIterator`:
the captured projection and `startNode` argument (`none` = the argument
was `undefined`), the captured `lastNode`, and the two mutable closure
variables `currentNode` and `forwards`. -/
structure IterState where
  proj : Proj
  startNode : Option JSVal
  lastNode : Option JSVal
  currentNode : Option JSVal
  forwards : Bool
deriving DecidableEq

namespace ReverseIterableMap

/-- `_iterableIterator(getIteratorValue, startNode)`: capture
`this._lastNode`, initialise `currentNode` to `startNode` when the
argument was given and to `this._firstNode` otherwise, direction
forwards. -/
def _iterableIterator (m : ReverseIterableMap) (proj : Proj)
    (startNode : Option JSVal) : IterState :=
  { proj := proj
    startNode := startNode
    lastNode := m._lastNode
    currentNode := match startNode with | some s => some s | none => m._firstNode
    forwards := true }

/-- `entries()`. -/
def entries (m : ReverseIterableMap) : IterState :=
  m._iterableIterator .pairs none

/-- `keys()`. -/
def keys (m : ReverseIterableMap) : IterState :=
  m._iterableIterator .keysOnly none

/-- `values()`. -/
def values (m : ReverseIterableMap) : IterState :=
  m._iterableIterator .valuesOnly none

/-- `iteratorFor(key)`: `startNode = this._map.get(key)` (a node, or
`undefined` when the key is absent) passed on to `_iterableIterator`.
The start node is stored by its key; an absent key passes `undefined`,
i.e. `none`. -/
def iteratorFor (m : ReverseIterableMap) (key : JSVal) : IterState :=
  match mapGet m._map key with
  | some _ => m._iterableIterator .pairs (some key)
  | none => m._iterableIterator .pairs none

end ReverseIterableMap

namespace IterState

/-- The iterator's `reverseIterator()` method: reset `currentNode` to the
captured `startNode` when one was given and to the captured `lastNode`
otherwise, set the direction to backwards, and return the same iterator
(here: the updated closure state; the captured fields are untouched). -/
def reverseIterator (it : IterState) : IterState :=
  { it with
    currentNode := match it.startNode with | some s => some s | none => it.lastNode
    forwards := false }

/-- The iterator's `next()` method against the (unmodified) map `m` whose
nodes it references: when `currentNode` is non-null, project it and
advance along `nextNode` or `prevNode`; the result is
`{ value, done: value === undefined }`.  Dereferencing `currentNode`
cannot fail while the map is unmodified (every linked node is registered
under its key); the `none` fallback is unreachable then. -/
def next (m : ReverseIterableMap) (it : IterState) : IterState × JSVal × Bool :=
  let step :=
    match it.currentNode with
    | some ck =>
      match mapGet m._map ck with
      | some node =>
        ({ it with currentNode := if it.forwards then node.nextNode else node.prevNode },
          projVal it.proj node)
      | none => (it, JSVal.undef)
    | none => (it, JSVal.undef)
  (step.1, step.2, step.2 == JSVal.undef)

/-- `n` successive `next()` calls, keeping only the final iterator state. -/
def nextN (m : ReverseIterableMap) : Nat → IterState → IterState
  | 0, it => it
  | n + 1, it => nextN m n (next m it).1

/-- Consuming the iterator as the iteration protocol does (`for…of`,
spread): repeatedly call `next()` and collect the produced values until a
result with `done: true` arrives.  `fuel` bounds the number of calls; any
fuel at least the chain length is enough. -/
def drain (m : ReverseIterableMap) : Nat → IterState → List JSVal
  | 0, _ => []
  | fuel + 1, it =>
    let r := next m it
    if r.2.2 then [] else r.2.1 :: drain m fuel r.1

end IterState


/-! ## The chain representation invariant -/

/-- The head of a key list as a link, with fallback `d` for the empty
list. -/
def headOr (ks : List JSVal) (d : Option JSVal) : Option JSVal :=
  match ks with
  | [] => d
  | k :: _ => some k

/-- The last element of a key list as a link, with fallback `d` for the
empty list. -/
def lastOr (ks : List JSVal) (d : Option JSVal) : Option JSVal :=
  match ks with
  | [] => d
  | k :: ks' => lastOr ks' (some k)

/-- The structural view of the node registered under `k`: its stored key
and its two links (its `value` does not participate in the chain shape). -/
def linksAt (mp : NodeMap) (k : JSVal) : Option (JSVal × Option JSVal × Option JSVal) :=
  (mapGet mp k).map (fun n => (n.key, n.prevNode, n.nextNode))

/-- The node registered under `k` exists, stores `k` as its key, and its
links are exactly `prev` and `next`. -/
def nodeOK (mp : NodeMap) (prev : Option JSVal) (k : JSVal) (next : Option JSVal) : Prop :=
  linksAt mp k = some (k, prev, next)

/-- `SegOK mp prev ks follow`: the keys `ks` name consecutively linked
nodes of `mp`; the first node's `prevNode` is `prev`, each node's
`nextNode` is the following key, and the last node's `nextNode` is
`follow`. -/
def SegOK (mp : NodeMap) : Option JSVal → List JSVal → Option JSVal → Prop
  | _, [], _ => True
  | prev, k :: ks, follow =>
    nodeOK mp prev k (headOr ks follow) ∧ SegOK mp (some k) ks follow

/-- The full well-formedness invariant of a `ReverseIterableMap` state:
`ks` lists the keys in chain order; the keys are pairwise distinct, they
are exactly the keys of the index (so the chain's node set is the index's
value set), `_firstNode` references the head (whose `prevNode` is null),
`_lastNode` references the tail (whose `nextNode` is null), and the
`prevNode`/`nextNode` links tie consecutive chain members together. -/
structure ChainRepr (m : ReverseIterableMap) (ks : List JSVal) : Prop where
  nodup : ks.Nodup
  perm : (m._map.map Prod.fst).Perm ks
  first_eq : m._firstNode = headOr ks none
  last_eq : m._lastNode = lastOr ks none
  seg : SegOK m._map none ks none

/-! ## Basic lemmas about the index operations -/

theorem mapGet_isSome_iff (mp : NodeMap) (k : JSVal) :
    (mapGet mp k).isSome = true ↔ k ∈ mp.map Prod.fst := by
  induction mp with
  | nil => simp [mapGet]
  | cons e rest ih =>
    obtain ⟨k', n⟩ := e
    by_cases h : k' = k
    · subst h; simp [mapGet]
    · rw [show ((k', n) :: rest).map Prod.fst = k' :: rest.map Prod.fst from rfl]
      simp only [mapGet, if_neg h, List.mem_cons, ih]
      constructor
      · exact fun hm => Or.inr hm
      · rintro (he | hm)
        · exact absurd he.symm h
        · exact hm

theorem mapGet_eq_none_iff (mp : NodeMap) (k : JSVal) :
    mapGet mp k = none ↔ k ∉ mp.map Prod.fst := by
  rw [← mapGet_isSome_iff]
  cases mapGet mp k <;> simp

theorem mapGet_mapPut (mp : NodeMap) (k : JSVal) (n : MapNode) (k' : JSVal) :
    mapGet (mapPut mp k n) k' = if k' = k then some n else mapGet mp k' := by
  induction mp with
  | nil =>
    by_cases h : k' = k
    · subst h; simp [mapPut, mapGet]
    · simp only [mapPut, mapGet, if_neg (fun hh : k = k' => h hh.symm), if_neg h]
  | cons e rest ih =>
    obtain ⟨k₀, n₀⟩ := e
    by_cases h0 : k₀ = k <;> by_cases h1 : k₀ = k'
    · subst h0; subst h1
      simp [mapPut, mapGet]
    · subst h0
      rw [show mapPut ((k₀, n₀) :: rest) k₀ n = (k₀, n) :: rest from by
        simp [mapPut]]
      rw [show mapGet ((k₀, n) :: rest) k' = mapGet rest k' from by
        simp only [mapGet, if_neg h1]]
      rw [show mapGet ((k₀, n₀) :: rest) k' = mapGet rest k' from by
        simp only [mapGet, if_neg h1]]
      rw [if_neg (fun hh : k' = k₀ => h1 hh.symm)]
    · subst h1
      rw [show mapPut ((k₀, n₀) :: rest) k n = (k₀, n₀) :: mapPut rest k n from by
        simp [mapPut, h0]]
      rw [show mapGet ((k₀, n₀) :: mapPut rest k n) k₀ = some n₀ from by
        simp [mapGet]]
      rw [if_neg (fun hh : k₀ = k => h0 hh)]
      simp [mapGet]
    · rw [show mapPut ((k₀, n₀) :: rest) k n = (k₀, n₀) :: mapPut rest k n from by
        simp [mapPut, h0]]
      rw [show mapGet ((k₀, n₀) :: mapPut rest k n) k' = mapGet (mapPut rest k n) k' from by
        simp [mapGet, fun hh : k₀ = k' => h1 hh]]
      rw [show mapGet ((k₀, n₀) :: rest) k' = mapGet rest k' from by
        simp [mapGet, fun hh : k₀ = k' => h1 hh]]
      exact ih

theorem mapGet_updEntry (f : MapNode → MapNode) (k : JSVal) (mp : NodeMap) (k' : JSVal) :
    mapGet (updEntry f k mp) k' =
      if k' = k then (mapGet mp k').map f else mapGet mp k' := by
  induction mp with
  | nil =>
    simp only [updEntry, mapGet, Option.map_none']
    by_cases h : k' = k <;> simp [h]
  | cons e rest ih =>
    obtain ⟨k₀, n₀⟩ := e
    by_cases h0 : k₀ = k <;> by_cases h1 : k₀ = k'
    · subst h0; subst h1
      rw [show updEntry f k₀ ((k₀, n₀) :: rest) = (k₀, f n₀) :: updEntry f k₀ rest from by
        simp [updEntry]]
      rw [show mapGet ((k₀, f n₀) :: updEntry f k₀ rest) k₀ = some (f n₀) from by
        simp [mapGet]]
      rw [show mapGet ((k₀, n₀) :: rest) k₀ = some n₀ from by simp [mapGet]]
      simp
    · subst h0
      rw [show updEntry f k₀ ((k₀, n₀) :: rest) = (k₀, f n₀) :: updEntry f k₀ rest from by
        simp [updEntry]]
      rw [show mapGet ((k₀, f n₀) :: updEntry f k₀ rest) k' = mapGet (updEntry f k₀ rest) k'
        from by simp only [mapGet, if_neg h1]]
      rw [show mapGet ((k₀, n₀) :: rest) k' = mapGet rest k' from by
        simp only [mapGet, if_neg h1]]
      exact ih
    · subst h1
      rw [show updEntry f k ((k₀, n₀) :: rest) = (k₀, n₀) :: updEntry f k rest from by
        simp [updEntry, h0]]
      rw [show mapGet ((k₀, n₀) :: updEntry f k rest) k₀ = some n₀ from by simp [mapGet]]
      rw [show mapGet ((k₀, n₀) :: rest) k₀ = some n₀ from by simp [mapGet]]
      rw [if_neg (fun hh : k₀ = k => h0 hh)]
    · rw [show updEntry f k ((k₀, n₀) :: rest) = (k₀, n₀) :: updEntry f k rest from by
        simp [updEntry, h0]]
      rw [show mapGet ((k₀, n₀) :: updEntry f k rest) k' = mapGet (updEntry f k rest) k'
        from by simp [mapGet, fun hh : k₀ = k' => h1 hh]]
      rw [show mapGet ((k₀, n₀) :: rest) k' = mapGet rest k' from by
        simp [mapGet, fun hh : k₀ = k' => h1 hh]]
      exact ih

theorem keys_updEntry (f : MapNode → MapNode) (k : JSVal) (mp : NodeMap) :
    (updEntry f k mp).map Prod.fst = mp.map Prod.fst := by
  induction mp with
  | nil => rfl
  | cons e rest ih =>
    obtain ⟨k₀, n₀⟩ := e
    by_cases h0 : k₀ = k <;> simp [updEntry, h0, ih]

theorem keys_mapPut_present (mp : NodeMap) (k : JSVal) (n : MapNode)
    (h : k ∈ mp.map Prod.fst) :
    (mapPut mp k n).map Prod.fst = mp.map Prod.fst := by
  induction mp with
  | nil => simp at h
  | cons e rest ih =>
    obtain ⟨k₀, n₀⟩ := e
    by_cases h0 : k₀ = k
    · subst h0; simp [mapPut]
    · rw [show ((k₀, n₀) :: rest).map Prod.fst = k₀ :: rest.map Prod.fst from rfl] at h
      rcases List.mem_cons.mp h with he | hm
      · exact absurd he.symm h0
      · simp [mapPut, h0, ih hm]

theorem keys_mapPut_absent (mp : NodeMap) (k : JSVal) (n : MapNode)
    (h : k ∉ mp.map Prod.fst) :
    (mapPut mp k n).map Prod.fst = mp.map Prod.fst ++ [k] := by
  induction mp with
  | nil => rfl
  | cons e rest ih =>
    obtain ⟨k₀, n₀⟩ := e
    rw [show ((k₀, n₀) :: rest).map Prod.fst = k₀ :: rest.map Prod.fst from rfl] at h
    have h0 : k₀ ≠ k := fun hh => h (List.mem_cons.mpr (Or.inl hh.symm))
    have hm : k ∉ rest.map Prod.fst := fun hh => h (List.mem_cons.mpr (Or.inr hh))
    simp [mapPut, h0, ih hm]

theorem mapDrop_snd (mp : NodeMap) (k : JSVal) :
    (mapDrop mp k).2 = (mapGet mp k).isSome := by
  induction mp with
  | nil => rfl
  | cons e rest ih =>
    obtain ⟨k₀, n₀⟩ := e
    by_cases h0 : k₀ = k <;> simp [mapDrop, mapGet, h0, ih]

theorem keys_mapDrop (mp : NodeMap) (k : JSVal) :
    (mapDrop mp k).1.map Prod.fst = (mp.map Prod.fst).erase k := by
  induction mp with
  | nil => rfl
  | cons e rest ih =>
    obtain ⟨k₀, n₀⟩ := e
    by_cases h0 : k₀ = k
    · subst h0; simp [mapDrop, List.erase_cons_head]
    · rw [show ((k₀, n₀) :: rest).map Prod.fst = k₀ :: rest.map Prod.fst from rfl]
      rw [List.erase_cons_tail (by simpa using h0)]
      simp [mapDrop, h0, ih]

theorem mapGet_mapDrop (mp : NodeMap) (k : JSVal) (hnd : (mp.map Prod.fst).Nodup)
    (k' : JSVal) :
    mapGet (mapDrop mp k).1 k' = if k' = k then none else mapGet mp k' := by
  induction mp with
  | nil =>
    simp only [mapDrop, mapGet]
    by_cases h : k' = k <;> simp [h]
  | cons e rest ih =>
    obtain ⟨k₀, n₀⟩ := e
    rw [show ((k₀, n₀) :: rest).map Prod.fst = k₀ :: rest.map Prod.fst from rfl] at hnd
    have hnd' := (List.nodup_cons.mp hnd).2
    have hk₀ : k₀ ∉ rest.map Prod.fst := (List.nodup_cons.mp hnd).1
    by_cases h0 : k₀ = k <;> by_cases h1 : k₀ = k'
    · subst h0; subst h1
      rw [show (mapDrop ((k₀, n₀) :: rest) k₀).1 = rest from by simp [mapDrop]]
      rw [if_pos rfl]
      rw [← mapGet_eq_none_iff] at hk₀
      exact hk₀
    · subst h0
      rw [show (mapDrop ((k₀, n₀) :: rest) k₀).1 = rest from by simp [mapDrop]]
      rw [if_neg (fun hh : k' = k₀ => h1 hh.symm)]
      rw [show mapGet ((k₀, n₀) :: rest) k' = mapGet rest k' from by
        simp only [mapGet, if_neg h1]]
    · subst h1
      rw [show (mapDrop ((k₀, n₀) :: rest) k).1 = (k₀, n₀) :: (mapDrop rest k).1 from by
        simp [mapDrop, h0]]
      rw [show mapGet ((k₀, n₀) :: (mapDrop rest k).1) k₀ = some n₀ from by simp [mapGet]]
      rw [if_neg (fun hh : k₀ = k => h0 hh)]
      simp [mapGet]
    · rw [show (mapDrop ((k₀, n₀) :: rest) k).1 = (k₀, n₀) :: (mapDrop rest k).1 from by
        simp [mapDrop, h0]]
      rw [show mapGet ((k₀, n₀) :: (mapDrop rest k).1) k' = mapGet (mapDrop rest k).1 k'
        from by simp [mapGet, fun hh : k₀ = k' => h1 hh]]
      rw [show mapGet ((k₀, n₀) :: rest) k' = mapGet rest k' from by
        simp [mapGet, fun hh : k₀ = k' => h1 hh]]
      exact ih hnd'

/-! ## Lemmas about chain segments -/

theorem headOr_append (l r : List JSVal) (d : Option JSVal) :
    headOr (l ++ r) d = headOr l (headOr r d) := by
  cases l <;> rfl

theorem lastOr_append (l r : List JSVal) (d : Option JSVal) :
    lastOr (l ++ r) d = lastOr r (lastOr l d) := by
  induction l generalizing d with
  | nil => rfl
  | cons k l ih => simpa [lastOr] using ih (some k)

theorem lastOr_concat (l : List JSVal) (k : JSVal) (d : Option JSVal) :
    lastOr (l ++ [k]) d = some k := by
  rw [lastOr_append]; rfl

theorem lastOr_irrel (k : JSVal) (l : List JSVal) (d d' : Option JSVal) :
    lastOr (k :: l) d = lastOr (k :: l) d' := rfl

theorem lastOr_eq_some (l : List JSVal) (k : JSVal) (h : lastOr l none = some k) :
    ∃ l₀, l = l₀ ++ [k] := by
  induction l with
  | nil => simp [lastOr] at h
  | cons x l ih =>
    cases l with
    | nil =>
      simp [lastOr] at h
      exact ⟨[], by simp [h]⟩
    | cons y l' =>
      have h' : lastOr (y :: l') none = some k := by
        rw [lastOr_irrel y l' none (some x)]
        exact h
      obtain ⟨l₀, hl⟩ := ih h'
      exact ⟨x :: l₀, by simp [hl]⟩

theorem segOK_congr (mp mp' : NodeMap) (ks : List JSVal)
    (hsame : ∀ k ∈ ks, linksAt mp' k = linksAt mp k) :
    ∀ prev follow, SegOK mp prev ks follow → SegOK mp' prev ks follow := by
  induction ks with
  | nil => intro prev follow _; trivial
  | cons k ks ih =>
    intro prev follow h
    obtain ⟨hnode, hseg⟩ := h
    refine ⟨?_, ih (fun x hx => hsame x (List.mem_cons_of_mem k hx)) (some k) follow hseg⟩
    unfold nodeOK
    rw [hsame k (List.mem_cons_self k ks)]
    exact hnode

theorem segOK_append (mp : NodeMap) (l r : List JSVal) :
    ∀ prev follow,
      SegOK mp prev (l ++ r) follow ↔
        SegOK mp prev l (headOr r follow) ∧ SegOK mp (lastOr l prev) r follow := by
  induction l with
  | nil =>
    intro prev follow
    simp [SegOK, lastOr]
  | cons k l ih =>
    intro prev follow
    rw [show (k :: l) ++ r = k :: (l ++ r) from rfl]
    rw [show SegOK mp prev (k :: (l ++ r)) follow ↔
          nodeOK mp prev k (headOr (l ++ r) follow) ∧ SegOK mp (some k) (l ++ r) follow
        from Iff.rfl]
    rw [show SegOK mp prev (k :: l) (headOr r follow) ↔
          nodeOK mp prev k (headOr l (headOr r follow)) ∧ SegOK mp (some k) l (headOr r follow)
        from Iff.rfl]
    rw [headOr_append, ih (some k) follow]
    rw [show lastOr (k :: l) prev = lastOr l (some k) from rfl]
    tauto

theorem lastOr_some_ne_none (l : List JSVal) (k : JSVal) : lastOr l (some k) ≠ none := by
  induction l generalizing k with
  | nil => simp [lastOr]
  | cons x l ih => exact ih x

theorem lastOr_eq_none_iff (l : List JSVal) : lastOr l none = none ↔ l = [] := by
  cases l with
  | nil => simp [lastOr]
  | cons x l => simp [lastOr, lastOr_some_ne_none l x]

/-! ## Link views across the index operations -/

theorem linksAt_setValueAt (mp : NodeMap) (k v k' : JSVal) :
    linksAt (setValueAt mp k v) k' = linksAt mp k' := by
  unfold linksAt setValueAt
  rw [mapGet_updEntry]
  by_cases h : k' = k
  · rw [if_pos h]
    cases mapGet mp k' <;> simp
  · rw [if_neg h]

theorem linksAt_setNextLink_ne (mp : NodeMap) (k : JSVal) (nxt : Option JSVal)
    (k' : JSVal) (h : k' ≠ k) :
    linksAt (setNextLink mp k nxt) k' = linksAt mp k' := by
  unfold linksAt setNextLink
  rw [mapGet_updEntry, if_neg h]

theorem linksAt_setNextLink_self (mp : NodeMap) (k : JSVal) (nxt : Option JSVal) :
    linksAt (setNextLink mp k nxt) k =
      (linksAt mp k).map (fun w => (w.1, w.2.1, nxt)) := by
  unfold linksAt setNextLink
  rw [mapGet_updEntry, if_pos rfl]
  cases mapGet mp k <;> simp

theorem linksAt_setPrevLink_ne (mp : NodeMap) (k : JSVal) (prv : Option JSVal)
    (k' : JSVal) (h : k' ≠ k) :
    linksAt (setPrevLink mp k prv) k' = linksAt mp k' := by
  unfold linksAt setPrevLink
  rw [mapGet_updEntry, if_neg h]

theorem linksAt_setPrevLink_self (mp : NodeMap) (k : JSVal) (prv : Option JSVal) :
    linksAt (setPrevLink mp k prv) k =
      (linksAt mp k).map (fun w => (w.1, prv, w.2.2)) := by
  unfold linksAt setPrevLink
  rw [mapGet_updEntry, if_pos rfl]
  cases mapGet mp k <;> simp

theorem linksAt_mapPut (mp : NodeMap) (k : JSVal) (n : MapNode) (k' : JSVal) :
    linksAt (mapPut mp k n) k' =
      if k' = k then some (n.key, n.prevNode, n.nextNode) else linksAt mp k' := by
  unfold linksAt
  rw [mapGet_mapPut]
  by_cases h : k' = k <;> simp [h]

theorem linksAt_mapDrop (mp : NodeMap) (k : JSVal) (hnd : (mp.map Prod.fst).Nodup)
    (k' : JSVal) :
    linksAt (mapDrop mp k).1 k' = if k' = k then none else linksAt mp k' := by
  unfold linksAt
  rw [mapGet_mapDrop mp k hnd]
  by_cases h : k' = k <;> simp [h]

/-! ## Unfolding the mutating operations -/

theorem ReverseIterableMap.set_present (m : ReverseIterableMap) (k v : JSVal)
    (h : (mapGet m._map k).isSome = true) :
    m.set k v = { m with _map := setValueAt m._map k v } := by
  obtain ⟨n, hn⟩ := Option.isSome_iff_exists.mp h
  simp [ReverseIterableMap.set, ReverseIterableMap._updateExistingNode, hn]

theorem ReverseIterableMap.setFirst_present (m : ReverseIterableMap) (k v : JSVal)
    (h : (mapGet m._map k).isSome = true) :
    m.setFirst k v = { m with _map := setValueAt m._map k v } := by
  obtain ⟨n, hn⟩ := Option.isSome_iff_exists.mp h
  simp [ReverseIterableMap.setFirst, ReverseIterableMap._updateExistingNode, hn]

theorem ReverseIterableMap.set_absent (m : ReverseIterableMap) (k v : JSVal)
    (h : mapGet m._map k = none) :
    m.set k v =
      { _map :=
          match m._lastNode with
          | some lk =>
            setNextLink (setPrevLink (mapPut m._map k ⟨k, v, none, none⟩) k (some lk)) lk (some k)
          | none => mapPut m._map k ⟨k, v, none, none⟩
        _firstNode := match m._firstNode with | none => some k | some f => some f
        _lastNode := some k } := by
  simp [ReverseIterableMap.set, ReverseIterableMap._updateExistingNode, h]

theorem ReverseIterableMap.setFirst_absent (m : ReverseIterableMap) (k v : JSVal)
    (h : mapGet m._map k = none) :
    m.setFirst k v =
      { _map :=
          match m._firstNode with
          | some fk =>
            setPrevLink (setNextLink (mapPut m._map k ⟨k, v, none, none⟩) k (some fk)) fk (some k)
          | none => mapPut m._map k ⟨k, v, none, none⟩
        _firstNode := some k
        _lastNode := match m._lastNode with | none => some k | some l => some l } := by
  simp [ReverseIterableMap.setFirst, ReverseIterableMap._updateExistingNode, h]

theorem ReverseIterableMap.delete_absent (m : ReverseIterableMap) (k : JSVal)
    (h : mapGet m._map k = none) :
    m.delete k = (m, false) := by
  simp [ReverseIterableMap.delete, h]

/-! ## Preservation of the invariant -/

theorem chainRepr_empty : ChainRepr ReverseIterableMap.empty [] :=
  ⟨List.nodup_nil, List.Perm.refl _, rfl, rfl, trivial⟩

theorem chainRepr_clear (m : ReverseIterableMap) : ChainRepr m.clear [] :=
  ⟨List.nodup_nil, List.Perm.refl _, rfl, rfl, trivial⟩

theorem chainRepr_mem_iff (m : ReverseIterableMap) (ks : List JSVal)
    (h : ChainRepr m ks) (k : JSVal) :
    (mapGet m._map k).isSome = true ↔ k ∈ ks := by
  rw [mapGet_isSome_iff]
  exact h.perm.mem_iff

theorem chainRepr_set_present (m : ReverseIterableMap) (ks : List JSVal) (k v : JSVal)
    (h : ChainRepr m ks) (hk : (mapGet m._map k).isSome = true) :
    ChainRepr (m.set k v) ks := by
  rw [ReverseIterableMap.set_present m k v hk]
  refine ⟨h.nodup, ?_, h.first_eq, h.last_eq, ?_⟩
  · show ((setValueAt m._map k v).map Prod.fst).Perm ks
    unfold setValueAt
    rw [keys_updEntry]
    exact h.perm
  · exact segOK_congr _ _ _ (fun x _ => linksAt_setValueAt m._map k v x) none none h.seg

theorem chainRepr_setFirst_present (m : ReverseIterableMap) (ks : List JSVal) (k v : JSVal)
    (h : ChainRepr m ks) (hk : (mapGet m._map k).isSome = true) :
    ChainRepr (m.setFirst k v) ks := by
  rw [ReverseIterableMap.setFirst_present m k v hk]
  refine ⟨h.nodup, ?_, h.first_eq, h.last_eq, ?_⟩
  · show ((setValueAt m._map k v).map Prod.fst).Perm ks
    unfold setValueAt
    rw [keys_updEntry]
    exact h.perm
  · exact segOK_congr _ _ _ (fun x _ => linksAt_setValueAt m._map k v x) none none h.seg

theorem chainRepr_set_absent (m : ReverseIterableMap) (ks : List JSVal) (k v : JSVal)
    (h : ChainRepr m ks) (hk : mapGet m._map k = none) :
    ChainRepr (m.set k v) (ks ++ [k]) := by
  have hknotin : k ∉ ks := by
    intro hin
    have hs := (chainRepr_mem_iff m ks h k).mpr hin
    rw [hk] at hs
    simp at hs
  rw [ReverseIterableMap.set_absent m k v hk]
  cases hlast : m._lastNode with
  | none =>
    have hksnil : ks = [] := by
      have hl := h.last_eq
      rw [hlast] at hl
      exact (lastOr_eq_none_iff ks).mp hl.symm
    subst hksnil
    have hmapnil : m._map = [] := by
      have hp := h.perm
      rw [List.perm_nil] at hp
      exact List.map_eq_nil_iff.mp hp
    have hfirst : m._firstNode = none := h.first_eq
    rw [hmapnil, hfirst]
    refine ⟨by simp, by simp [mapPut], rfl, rfl, ?_⟩
    exact ⟨by simp [nodeOK, linksAt, mapPut, mapGet, headOr], trivial⟩
  | some lk =>
    have hlk : lastOr ks none = some lk := by
      have hl := h.last_eq
      rw [hlast] at hl
      exact hl.symm
    obtain ⟨ks₀, hks⟩ := lastOr_eq_some ks lk hlk
    have hlkin : lk ∈ ks := by rw [hks]; simp
    have hnd := h.nodup
    have hlknotin₀ : lk ∉ ks₀ := by
      rw [hks, List.nodup_append] at hnd
      intro hx
      exact hnd.2.2 hx (List.mem_singleton_self lk)
    have hkne : k ≠ lk := fun he => hknotin (he ▸ hlkin)
    have hsegold := h.seg
    rw [hks, segOK_append] at hsegold
    obtain ⟨hseg₀, hseglk⟩ := hsegold
    obtain ⟨hnodelk, -⟩ := hseglk
    -- link views in the updated index
    have hlinkk :
        linksAt (setNextLink (setPrevLink (mapPut m._map k ⟨k, v, none, none⟩) k (some lk)) lk (some k)) k
          = some (k, some lk, none) := by
      rw [linksAt_setNextLink_ne _ _ _ k hkne, linksAt_setPrevLink_self,
        linksAt_mapPut, if_pos rfl]
      rfl
    have hlinklk :
        linksAt (setNextLink (setPrevLink (mapPut m._map k ⟨k, v, none, none⟩) k (some lk)) lk (some k)) lk
          = some (lk, lastOr ks₀ none, some k) := by
      rw [linksAt_setNextLink_self, linksAt_setPrevLink_ne _ _ _ lk hkne.symm,
        linksAt_mapPut, if_neg hkne.symm]
      have := hnodelk
      unfold nodeOK at this
      rw [this]
      rfl
    have hcong : ∀ x ∈ ks₀,
        linksAt (setNextLink (setPrevLink (mapPut m._map k ⟨k, v, none, none⟩) k (some lk)) lk (some k)) x
          = linksAt m._map x := by
      intro x hx
      have hxks : x ∈ ks := by rw [hks]; exact List.mem_append_left _ hx
      have hxk : x ≠ k := fun he => hknotin (he ▸ hxks)
      have hxlk : x ≠ lk := fun he => hlknotin₀ (he ▸ hx)
      rw [linksAt_setNextLink_ne _ _ _ x hxlk, linksAt_setPrevLink_ne _ _ _ x hxk,
        linksAt_mapPut, if_neg hxk]
    refine ⟨?_, ?_, ?_, ?_, ?_⟩
    · rw [List.nodup_append]
      refine ⟨h.nodup, List.nodup_singleton k, ?_⟩
      intro a ha hb
      rw [List.mem_singleton] at hb
      subst hb
      exact hknotin ha
    · show ((setNextLink (setPrevLink (mapPut m._map k ⟨k, v, none, none⟩) k (some lk)) lk (some k)).map Prod.fst).Perm (ks ++ [k])
      unfold setNextLink setPrevLink
      rw [keys_updEntry, keys_updEntry,
        keys_mapPut_absent m._map k _ ((mapGet_eq_none_iff m._map k).mp hk)]
      exact h.perm.append_right [k]
    · show (match m._firstNode with | none => some k | some f => some f) = headOr (ks ++ [k]) none
      rw [h.first_eq, hks]
      cases ks₀ <;> rfl
    · show some k = lastOr (ks ++ [k]) none
      rw [lastOr_concat]
    · show SegOK _ none (ks ++ [k]) none
      rw [hks, show (ks₀ ++ [lk]) ++ [k] = ks₀ ++ ([lk] ++ [k]) from by simp, segOK_append]
      constructor
      · -- the old prefix ks₀, now followed by lk
        have : headOr ([lk] ++ [k]) none = headOr [lk] none := rfl
        rw [this]
        exact segOK_congr _ _ _ hcong none _ hseg₀
      · -- the two-node tail [lk, k]
        refine ⟨?_, ?_, trivial⟩
        · show nodeOK _ (lastOr ks₀ none) lk (headOr [k] none)
          unfold nodeOK
          rw [hlinklk]
          rfl
        · show nodeOK _ (some lk) k (headOr [] none)
          unfold nodeOK
          rw [hlinkk]
          rfl

theorem headOr_eq_none_iff (l : List JSVal) : headOr l none = none ↔ l = [] := by
  cases l <;> simp [headOr]

theorem headOr_eq_some (l : List JSVal) (k : JSVal) (h : headOr l none = some k) :
    ∃ l₁, l = k :: l₁ := by
  cases l with
  | nil => simp [headOr] at h
  | cons x l₁ =>
    simp [headOr] at h
    exact ⟨l₁, by rw [h]⟩

theorem chainRepr_setFirst_absent (m : ReverseIterableMap) (ks : List JSVal) (k v : JSVal)
    (h : ChainRepr m ks) (hk : mapGet m._map k = none) :
    ChainRepr (m.setFirst k v) (k :: ks) := by
  have hknotin : k ∉ ks := by
    intro hin
    have hs := (chainRepr_mem_iff m ks h k).mpr hin
    rw [hk] at hs
    simp at hs
  rw [ReverseIterableMap.setFirst_absent m k v hk]
  cases hfirst : m._firstNode with
  | none =>
    have hksnil : ks = [] := by
      have hf := h.first_eq
      rw [hfirst] at hf
      exact (headOr_eq_none_iff ks).mp hf.symm
    subst hksnil
    have hmapnil : m._map = [] := by
      have hp := h.perm
      rw [List.perm_nil] at hp
      exact List.map_eq_nil_iff.mp hp
    have hlast : m._lastNode = none := h.last_eq
    rw [hmapnil, hlast]
    refine ⟨by simp, by simp [mapPut], rfl, rfl, ?_⟩
    exact ⟨by simp [nodeOK, linksAt, mapPut, mapGet, headOr], trivial⟩
  | some fk =>
    have hfk : headOr ks none = some fk := by
      have hf := h.first_eq
      rw [hfirst] at hf
      exact hf.symm
    obtain ⟨ks₁, hks⟩ := headOr_eq_some ks fk hfk
    have hfkin : fk ∈ ks := by rw [hks]; exact List.mem_cons_self fk ks₁
    have hnd := h.nodup
    have hfknotin₁ : fk ∉ ks₁ := by
      rw [hks, List.nodup_cons] at hnd
      exact hnd.1
    have hkne : k ≠ fk := fun he => hknotin (he ▸ hfkin)
    have hsegold := h.seg
    rw [hks] at hsegold
    obtain ⟨hnodefk, hseg₁⟩ := hsegold
    -- link views in the updated index
    have hlinkk :
        linksAt (setPrevLink (setNextLink (mapPut m._map k ⟨k, v, none, none⟩) k (some fk)) fk (some k)) k
          = some (k, none, some fk) := by
      rw [linksAt_setPrevLink_ne _ _ _ k hkne, linksAt_setNextLink_self,
        linksAt_mapPut, if_pos rfl]
      rfl
    have hlinkfk :
        linksAt (setPrevLink (setNextLink (mapPut m._map k ⟨k, v, none, none⟩) k (some fk)) fk (some k)) fk
          = some (fk, some k, headOr ks₁ none) := by
      rw [linksAt_setPrevLink_self, linksAt_setNextLink_ne _ _ _ fk hkne.symm,
        linksAt_mapPut, if_neg hkne.symm]
      have hn := hnodefk
      unfold nodeOK at hn
      rw [hn]
      rfl
    have hcong : ∀ x ∈ ks₁,
        linksAt (setPrevLink (setNextLink (mapPut m._map k ⟨k, v, none, none⟩) k (some fk)) fk (some k)) x
          = linksAt m._map x := by
      intro x hx
      have hxks : x ∈ ks := by rw [hks]; exact List.mem_cons_of_mem fk hx
      have hxk : x ≠ k := fun he => hknotin (he ▸ hxks)
      have hxfk : x ≠ fk := fun he => hfknotin₁ (he ▸ hx)
      rw [linksAt_setPrevLink_ne _ _ _ x hxfk, linksAt_setNextLink_ne _ _ _ x hxk,
        linksAt_mapPut, if_neg hxk]
    refine ⟨?_, ?_, rfl, ?_, ?_⟩
    · rw [List.nodup_cons]
      exact ⟨hknotin, h.nodup⟩
    · show ((setPrevLink (setNextLink (mapPut m._map k ⟨k, v, none, none⟩) k (some fk)) fk (some k)).map Prod.fst).Perm (k :: ks)
      unfold setPrevLink setNextLink
      rw [keys_updEntry, keys_updEntry,
        keys_mapPut_absent m._map k _ ((mapGet_eq_none_iff m._map k).mp hk)]
      exact (h.perm.append_right [k]).trans (List.perm_append_singleton k ks)
    · show (match m._lastNode with | none => some k | some l => some l) = lastOr (k :: ks) none
      have hlne : lastOr ks none = lastOr (k :: ks) none := by
        rw [hks]
        exact (lastOr_irrel fk ks₁ (some k) none).symm
      rw [h.last_eq, hks]
      rw [hks] at hlne
      rw [← hlne]
      cases hl : lastOr (fk :: ks₁) none with
      | none => exact absurd hl (by rw [show lastOr (fk :: ks₁) none = lastOr ks₁ (some fk) from rfl]; exact lastOr_some_ne_none ks₁ fk)
      | some l => rfl
    · show SegOK _ none (k :: ks) none
      rw [hks]
      refine ⟨?_, ?_, ?_⟩
      · show nodeOK _ none k (headOr (fk :: ks₁) none)
        unfold nodeOK
        rw [hlinkk]
        rfl
      · show nodeOK _ (some k) fk (headOr ks₁ none)
        unfold nodeOK
        rw [hlinkfk]
      · exact segOK_congr _ _ _ hcong (some fk) none hseg₁

theorem headOr_irrel (x : JSVal) (xs : List JSVal) (d d' : Option JSVal) :
    headOr (x :: xs) d = headOr (x :: xs) d' := rfl

theorem ReverseIterableMap.delete_present_mid (m : ReverseIterableMap) (k : JSVal)
    (node : MapNode) (pk nk : JSVal) (hk : mapGet m._map k = some node)
    (hp : node.prevNode = some pk) (hn : node.nextNode = some nk) :
    m.delete k =
      ({ m with _map := (mapDrop (setPrevLink (setNextLink m._map pk (some nk)) nk (some pk)) k).1 },
        (mapDrop (setPrevLink (setNextLink m._map pk (some nk)) nk (some pk)) k).2) := by
  simp [ReverseIterableMap.delete, hk, hp, hn]

theorem ReverseIterableMap.delete_present_tail (m : ReverseIterableMap) (k : JSVal)
    (node : MapNode) (pk : JSVal) (hk : mapGet m._map k = some node)
    (hp : node.prevNode = some pk) (hn : node.nextNode = none) :
    m.delete k =
      ({ m with _map := (mapDrop (setNextLink m._map pk none) k).1, _lastNode := some pk },
        (mapDrop (setNextLink m._map pk none) k).2) := by
  simp [ReverseIterableMap.delete, hk, hp, hn]

theorem ReverseIterableMap.delete_present_head (m : ReverseIterableMap) (k : JSVal)
    (node : MapNode) (nk : JSVal) (hk : mapGet m._map k = some node)
    (hp : node.prevNode = none) (hn : node.nextNode = some nk) :
    m.delete k =
      ({ m with _map := (mapDrop (setPrevLink m._map nk none) k).1, _firstNode := some nk },
        (mapDrop (setPrevLink m._map nk none) k).2) := by
  simp [ReverseIterableMap.delete, hk, hp, hn]

theorem ReverseIterableMap.delete_present_sole (m : ReverseIterableMap) (k : JSVal)
    (node : MapNode) (hk : mapGet m._map k = some node)
    (hp : node.prevNode = none) (hn : node.nextNode = none) :
    m.delete k =
      ({ m with _map := (mapDrop m._map k).1, _firstNode := none, _lastNode := none },
        (mapDrop m._map k).2) := by
  simp [ReverseIterableMap.delete, hk, hp, hn]

theorem chainRepr_delete_present (m : ReverseIterableMap) (l r : List JSVal) (k : JSVal)
    (h : ChainRepr m (l ++ k :: r)) :
    ChainRepr (m.delete k).1 (l ++ r) := by
  -- distinctness bookkeeping
  have hnd := h.nodup
  rw [List.nodup_append] at hnd
  obtain ⟨hndl, hndkr, hdisj⟩ := hnd
  rw [List.nodup_cons] at hndkr
  obtain ⟨hknr, hndr⟩ := hndkr
  have hknl : k ∉ l := fun hx => hdisj hx (List.mem_cons_self k r)
  have hdisjlr : ∀ a ∈ l, a ∉ r := fun a ha hb => hdisj ha (List.mem_cons_of_mem k hb)
  have hkeysnd : (m._map.map Prod.fst).Nodup := h.perm.nodup_iff.mpr h.nodup
  have hkeysperm := h.perm
  -- decompose the chain around k
  have hseg := h.seg
  rw [segOK_append] at hseg
  obtain ⟨hsegl, hsegkr⟩ := hseg
  obtain ⟨hnodek, hsegr⟩ := hsegkr
  unfold nodeOK linksAt at hnodek
  rw [Option.map_eq_some'] at hnodek
  obtain ⟨node, hgetk, hview⟩ := hnodek
  obtain ⟨hkey, hprev, hnext⟩ :
      node.key = k ∧ node.prevNode = lastOr l none ∧ node.nextNode = headOr r none := by
    simpa [Prod.ext_iff] using hview
  cases hl : lastOr l none with
  | none =>
    have hlnil : l = [] := (lastOr_eq_none_iff l).mp hl
    subst hlnil
    rw [hl] at hprev
    cases hr : headOr r none with
    | none =>
      have hrnil : r = [] := (headOr_eq_none_iff r).mp hr
      subst hrnil
      rw [hr] at hnext
      rw [ReverseIterableMap.delete_present_sole m k node hgetk hprev hnext]
      refine ⟨List.nodup_nil, ?_, rfl, rfl, trivial⟩
      show ((mapDrop m._map k).1.map Prod.fst).Perm ([] ++ [])
      rw [keys_mapDrop]
      have hpe := hkeysperm.erase k
      simpa [List.erase_cons_head] using hpe
    | some nk =>
      obtain ⟨r₁, hr₁⟩ := headOr_eq_some r nk hr
      subst hr₁
      rw [hr] at hnext
      rw [ReverseIterableMap.delete_present_head m k node nk hgetk hprev hnext]
      have hknk : k ≠ nk := fun he => hknr (he ▸ List.mem_cons_self nk r₁)
      have hnknr₁ : nk ∉ r₁ := (List.nodup_cons.mp hndr).1
      have hkeysnd' : ((setPrevLink m._map nk none).map Prod.fst).Nodup := by
        unfold setPrevLink
        rw [keys_updEntry]
        exact hkeysnd
      obtain ⟨hnodenk, hsegr₁⟩ := hsegr
      -- hnodenk : nodeOK m._map (some k) nk (headOr r₁ none)
      have hlinknk :
          linksAt (mapDrop (setPrevLink m._map nk none) k).1 nk
            = some (nk, none, headOr r₁ none) := by
        rw [linksAt_mapDrop _ _ hkeysnd', if_neg hknk.symm, linksAt_setPrevLink_self]
        have hn := hnodenk
        unfold nodeOK at hn
        rw [hn]
        rfl
      have hcong : ∀ x ∈ r₁,
          linksAt (mapDrop (setPrevLink m._map nk none) k).1 x = linksAt m._map x := by
        intro x hx
        have hxk : x ≠ k := fun he => hknr (he ▸ List.mem_cons_of_mem nk hx)
        have hxnk : x ≠ nk := fun he => hnknr₁ (he ▸ hx)
        rw [linksAt_mapDrop _ _ hkeysnd', if_neg hxk, linksAt_setPrevLink_ne _ _ _ x hxnk]
      refine ⟨hndr, ?_, ?_, ?_, ?_⟩
      · show ((mapDrop (setPrevLink m._map nk none) k).1.map Prod.fst).Perm ([] ++ nk :: r₁)
        rw [keys_mapDrop]
        unfold setPrevLink
        rw [keys_updEntry]
        have hpe := hkeysperm.erase k
        simpa [List.erase_cons_head] using hpe
      · show some nk = headOr ([] ++ nk :: r₁) none
        rfl
      · show m._lastNode = lastOr ([] ++ nk :: r₁) none
        rw [h.last_eq]
        rfl
      · show SegOK _ none ([] ++ nk :: r₁) none
        refine ⟨?_, segOK_congr _ _ _ hcong (some nk) none hsegr₁⟩
        unfold nodeOK
        rw [hlinknk]
  | some pk =>
    obtain ⟨l₀, hl₀⟩ := lastOr_eq_some l pk hl
    subst hl₀
    rw [hl] at hprev
    have hpkl : pk ∈ l₀ ++ [pk] := by simp
    have hpkk : pk ≠ k := fun he => hknl (he ▸ hpkl)
    have hpknl₀ : pk ∉ l₀ := by
      rw [List.nodup_append] at hndl
      exact fun hx => hndl.2.2 hx (List.mem_singleton_self pk)
    -- split the prefix around pk
    rw [segOK_append] at hsegl
    obtain ⟨hsegl₀, hsegpk⟩ := hsegl
    obtain ⟨hnodepk, -⟩ := hsegpk
    -- hnodepk : nodeOK m._map (lastOr l₀ none) pk (headOr [] (headOr (k :: r) none))
    cases hr : headOr r none with
    | none =>
      have hrnil : r = [] := (headOr_eq_none_iff r).mp hr
      subst hrnil
      rw [hr] at hnext
      rw [ReverseIterableMap.delete_present_tail m k node pk hgetk hprev hnext]
      have hkeysnd' : ((setNextLink m._map pk none).map Prod.fst).Nodup := by
        unfold setNextLink
        rw [keys_updEntry]
        exact hkeysnd
      have hlinkpk :
          linksAt (mapDrop (setNextLink m._map pk none) k).1 pk
            = some (pk, lastOr l₀ none, none) := by
        rw [linksAt_mapDrop _ _ hkeysnd', if_neg hpkk, linksAt_setNextLink_self]
        have hn := hnodepk
        unfold nodeOK at hn
        rw [hn]
        rfl
      have hcong : ∀ x ∈ l₀,
          linksAt (mapDrop (setNextLink m._map pk none) k).1 x = linksAt m._map x := by
        intro x hx
        have hxl : x ∈ l₀ ++ [pk] := List.mem_append_left _ hx
        have hxk : x ≠ k := fun he => hknl (he ▸ hxl)
        have hxpk : x ≠ pk := fun he => hpknl₀ (he ▸ hx)
        rw [linksAt_mapDrop _ _ hkeysnd', if_neg hxk, linksAt_setNextLink_ne _ _ _ x hxpk]
      refine ⟨by simpa using hndl, ?_, ?_, ?_, ?_⟩
      · show ((mapDrop (setNextLink m._map pk none) k).1.map Prod.fst).Perm ((l₀ ++ [pk]) ++ [])
        rw [keys_mapDrop]
        unfold setNextLink
        rw [keys_updEntry]
        have hpe := hkeysperm.erase k
        rw [List.erase_append_right (k :: []) hknl, List.erase_cons_head] at hpe
        simpa using hpe
      · show m._firstNode = headOr ((l₀ ++ [pk]) ++ []) none
        rw [h.first_eq, headOr_append, headOr_append]
        cases l₀ <;> rfl
      · show some pk = lastOr ((l₀ ++ [pk]) ++ []) none
        rw [List.append_nil, lastOr_concat]
      · show SegOK _ none ((l₀ ++ [pk]) ++ []) none
        rw [List.append_nil, segOK_append]
        refine ⟨segOK_congr _ _ _ hcong none _ hsegl₀, ?_, trivial⟩
        unfold nodeOK
        rw [hlinkpk]
        rfl
    | some nk =>
      obtain ⟨r₁, hr₁⟩ := headOr_eq_some r nk hr
      subst hr₁
      rw [hr] at hnext
      rw [ReverseIterableMap.delete_present_mid m k node pk nk hgetk hprev hnext]
      have hknk : k ≠ nk := fun he => hknr (he ▸ List.mem_cons_self nk r₁)
      have hnknr₁ : nk ∉ r₁ := (List.nodup_cons.mp hndr).1
      have hpknk : pk ≠ nk := fun he =>
        hdisjlr pk hpkl (he ▸ List.mem_cons_self nk r₁)
      obtain ⟨hnodenk, hsegr₁⟩ := hsegr
      have hkeysnd' :
          ((setPrevLink (setNextLink m._map pk (some nk)) nk (some pk)).map Prod.fst).Nodup := by
        unfold setPrevLink setNextLink
        rw [keys_updEntry, keys_updEntry]
        exact hkeysnd
      have hlinkpk :
          linksAt (mapDrop (setPrevLink (setNextLink m._map pk (some nk)) nk (some pk)) k).1 pk
            = some (pk, lastOr l₀ none, some nk) := by
        rw [linksAt_mapDrop _ _ hkeysnd', if_neg hpkk,
          linksAt_setPrevLink_ne _ _ _ pk hpknk, linksAt_setNextLink_self]
        have hn := hnodepk
        unfold nodeOK at hn
        rw [hn]
        rfl
      have hlinknk :
          linksAt (mapDrop (setPrevLink (setNextLink m._map pk (some nk)) nk (some pk)) k).1 nk
            = some (nk, some pk, headOr r₁ none) := by
        rw [linksAt_mapDrop _ _ hkeysnd', if_neg hknk.symm, linksAt_setPrevLink_self,
          linksAt_setNextLink_ne _ _ _ nk hpknk.symm]
        have hn := hnodenk
        unfold nodeOK at hn
        rw [hn]
        rfl
      have hcong : ∀ x, x ≠ k → x ≠ pk → x ≠ nk →
          linksAt (mapDrop (setPrevLink (setNextLink m._map pk (some nk)) nk (some pk)) k).1 x
            = linksAt m._map x := by
        intro x hxk hxpk hxnk
        rw [linksAt_mapDrop _ _ hkeysnd', if_neg hxk,
          linksAt_setPrevLink_ne _ _ _ x hxnk, linksAt_setNextLink_ne _ _ _ x hxpk]
      have hcongl₀ : ∀ x ∈ l₀,
          linksAt (mapDrop (setPrevLink (setNextLink m._map pk (some nk)) nk (some pk)) k).1 x
            = linksAt m._map x := by
        intro x hx
        have hxl : x ∈ l₀ ++ [pk] := List.mem_append_left _ hx
        exact hcong x (fun he => hknl (he ▸ hxl)) (fun he => hpknl₀ (he ▸ hx))
          (fun he => hdisjlr x hxl (he ▸ List.mem_cons_self nk r₁))
      have hcongr₁ : ∀ x ∈ r₁,
          linksAt (mapDrop (setPrevLink (setNextLink m._map pk (some nk)) nk (some pk)) k).1 x
            = linksAt m._map x := by
        intro x hx
        have hxr : x ∈ nk :: r₁ := List.mem_cons_of_mem nk hx
        exact hcong x (fun he => hknr (he ▸ hxr)) (fun he => hdisjlr pk hpkl (he ▸ hxr))
          (fun he => hnknr₁ (he ▸ hx))
      refine ⟨?_, ?_, ?_, ?_, ?_⟩
      · rw [List.nodup_append]
        exact ⟨hndl, hndr, hdisjlr⟩
      · show ((mapDrop (setPrevLink (setNextLink m._map pk (some nk)) nk (some pk)) k).1.map Prod.fst).Perm ((l₀ ++ [pk]) ++ nk :: r₁)
        rw [keys_mapDrop]
        unfold setPrevLink setNextLink
        rw [keys_updEntry, keys_updEntry]
        have hpe := hkeysperm.erase k
        rw [List.erase_append_right (k :: nk :: r₁) hknl, List.erase_cons_head] at hpe
        exact hpe
      · show m._firstNode = headOr ((l₀ ++ [pk]) ++ nk :: r₁) none
        rw [h.first_eq, headOr_append, headOr_append]
        cases l₀ <;> rfl
      · show m._lastNode = lastOr ((l₀ ++ [pk]) ++ nk :: r₁) none
        rw [h.last_eq, lastOr_append (l₀ ++ [pk]) (k :: nk :: r₁) none,
          lastOr_append (l₀ ++ [pk]) (nk :: r₁) none]
        rfl
      · show SegOK _ none ((l₀ ++ [pk]) ++ nk :: r₁) none
        rw [segOK_append]
        constructor
        · rw [segOK_append]
          refine ⟨segOK_congr _ _ _ hcongl₀ none _ hsegl₀, ?_, trivial⟩
          unfold nodeOK
          rw [hlinkpk]
          rfl
        · rw [lastOr_concat]
          refine ⟨?_, segOK_congr _ _ _ hcongr₁ (some nk) none hsegr₁⟩
          unfold nodeOK
          rw [hlinknk]

/-! ## Value views, sizes, and reachability -/

/-- The stored value of the node registered under `k`. -/
def valueAt (mp : NodeMap) (k : JSVal) : Option JSVal :=
  (mapGet mp k).map (fun n => n.value)

theorem get_eq_valueAt (m : ReverseIterableMap) (k : JSVal) :
    m.get k = (valueAt m._map k).getD JSVal.undef := by
  unfold ReverseIterableMap.get valueAt
  cases mapGet m._map k <;> rfl

theorem has_eq_valueAt (m : ReverseIterableMap) (k : JSVal) :
    m.has k = (valueAt m._map k).isSome := by
  unfold ReverseIterableMap.has valueAt
  cases mapGet m._map k <;> rfl

theorem valueAt_setNextLink (mp : NodeMap) (k : JSVal) (nxt : Option JSVal) (x : JSVal) :
    valueAt (setNextLink mp k nxt) x = valueAt mp x := by
  unfold valueAt setNextLink
  rw [mapGet_updEntry]
  by_cases h : x = k
  · rw [if_pos h]
    cases mapGet mp x <;> rfl
  · rw [if_neg h]

theorem valueAt_setPrevLink (mp : NodeMap) (k : JSVal) (prv : Option JSVal) (x : JSVal) :
    valueAt (setPrevLink mp k prv) x = valueAt mp x := by
  unfold valueAt setPrevLink
  rw [mapGet_updEntry]
  by_cases h : x = k
  · rw [if_pos h]
    cases mapGet mp x <;> rfl
  · rw [if_neg h]

theorem valueAt_setValueAt (mp : NodeMap) (k v x : JSVal) :
    valueAt (setValueAt mp k v) x =
      if x = k then (mapGet mp x).map (fun _ => v) else valueAt mp x := by
  unfold valueAt setValueAt
  rw [mapGet_updEntry]
  by_cases h : x = k
  · rw [if_pos h, if_pos h]
    cases mapGet mp x <;> rfl
  · rw [if_neg h, if_neg h]

theorem valueAt_mapPut (mp : NodeMap) (k : JSVal) (n : MapNode) (x : JSVal) :
    valueAt (mapPut mp k n) x = if x = k then some n.value else valueAt mp x := by
  unfold valueAt
  rw [mapGet_mapPut]
  by_cases h : x = k
  · rw [if_pos h, if_pos h]
    rfl
  · rw [if_neg h, if_neg h]

theorem valueAt_mapDrop (mp : NodeMap) (k : JSVal) (hnd : (mp.map Prod.fst).Nodup)
    (x : JSVal) :
    valueAt (mapDrop mp k).1 x = if x = k then none else valueAt mp x := by
  unfold valueAt
  rw [mapGet_mapDrop mp k hnd]
  by_cases h : x = k
  · rw [if_pos h, if_pos h]
    rfl
  · rw [if_neg h, if_neg h]

theorem updEntry_length (f : MapNode → MapNode) (k : JSVal) (mp : NodeMap) :
    (updEntry f k mp).length = mp.length := by
  induction mp with
  | nil => rfl
  | cons e rest ih =>
    obtain ⟨k₀, n₀⟩ := e
    by_cases h : k₀ = k <;> simp [updEntry, h, ih]

theorem mapPut_length (mp : NodeMap) (k : JSVal) (n : MapNode) :
    (mapPut mp k n).length =
      if (mapGet mp k).isSome then mp.length else mp.length + 1 := by
  induction mp with
  | nil => simp [mapPut, mapGet]
  | cons e rest ih =>
    obtain ⟨k₀, n₀⟩ := e
    by_cases h : k₀ = k
    · simp [mapPut, mapGet, h]
    · simp only [mapPut, if_neg h, List.length_cons, mapGet, ih]
      split <;> rfl

theorem mapDrop_length (mp : NodeMap) (k : JSVal) :
    (mapDrop mp k).1.length =
      if (mapGet mp k).isSome then mp.length - 1 else mp.length := by
  induction mp with
  | nil => simp [mapDrop, mapGet]
  | cons e rest ih =>
    obtain ⟨k₀, n₀⟩ := e
    by_cases h : k₀ = k
    · simp [mapDrop, mapGet, h]
    · cases hk : mapGet rest k with
      | none =>
        rw [hk] at ih
        simp only [Option.isSome_none, Bool.false_eq_true, if_false] at ih
        simp [mapDrop, mapGet, h, hk, ih]
      | some n =>
        rw [hk] at ih
        simp only [Option.isSome_some, if_true] at ih
        have h1 : 1 ≤ rest.length := by
          cases rest with
          | nil => simp [mapGet] at hk
          | cons _ _ => simp
        simp [mapDrop, mapGet, h, hk, ih]
        omega

theorem chainRepr_set (m : ReverseIterableMap) (ks : List JSVal) (k v : JSVal)
    (h : ChainRepr m ks) : ∃ ks', ChainRepr (m.set k v) ks' := by
  cases hk : mapGet m._map k with
  | none => exact ⟨ks ++ [k], chainRepr_set_absent m ks k v h hk⟩
  | some node => exact ⟨ks, chainRepr_set_present m ks k v h (by rw [hk]; rfl)⟩

theorem chainRepr_setFirst (m : ReverseIterableMap) (ks : List JSVal) (k v : JSVal)
    (h : ChainRepr m ks) : ∃ ks', ChainRepr (m.setFirst k v) ks' := by
  cases hk : mapGet m._map k with
  | none => exact ⟨k :: ks, chainRepr_setFirst_absent m ks k v h hk⟩
  | some node => exact ⟨ks, chainRepr_setFirst_present m ks k v h (by rw [hk]; rfl)⟩

theorem chainRepr_delete (m : ReverseIterableMap) (ks : List JSVal) (k : JSVal)
    (h : ChainRepr m ks) : ∃ ks', ChainRepr (m.delete k).1 ks' := by
  cases hk : mapGet m._map k with
  | none => exact ⟨ks, by rw [ReverseIterableMap.delete_absent m k hk]; exact h⟩
  | some node =>
    have hks : k ∈ ks := by
      rw [← chainRepr_mem_iff m ks h k, hk]
      rfl
    obtain ⟨l, r, hlr⟩ := List.append_of_mem hks
    subst hlr
    exact ⟨l ++ r, chainRepr_delete_present m l r k h⟩

/-- The states reachable from an empty or validly constructed map by the
mutating operations of the class. -/
inductive Reachable : ReverseIterableMap → Prop where
  | empty : Reachable ReverseIterableMap.empty
  | constructed (l : List JSVal) (m : ReverseIterableMap) :
      ReverseIterableMap.fromIterable l = Except.ok m → Reachable m
  | set (m : ReverseIterableMap) (k v : JSVal) : Reachable m → Reachable (m.set k v)
  | setFirst (m : ReverseIterableMap) (k v : JSVal) : Reachable m → Reachable (m.setFirst k v)
  | delete (m : ReverseIterableMap) (k : JSVal) : Reachable m → Reachable (m.delete k).1
  | clear (m : ReverseIterableMap) : Reachable m → Reachable m.clear

theorem addAll_ok_chainRepr (l : List JSVal) :
    ∀ (m m' : ReverseIterableMap), (∃ ks, ChainRepr m ks) →
      m.addAll l = Except.ok m' → ∃ ks', ChainRepr m' ks' := by
  induction l with
  | nil =>
    intro m m' hm h
    rw [ReverseIterableMap.addAll] at h
    cases h
    exact hm
  | cons elt rest ih =>
    intro m m' hm h
    rw [ReverseIterableMap.addAll] at h
    by_cases he : elt.isArray
    · rw [if_pos he] at h
      obtain ⟨ks, hks⟩ := hm
      exact ih _ m' (chainRepr_set m ks _ _ hks) h
    · rw [if_neg he] at h
      cases h

theorem reachable_chainRepr (m : ReverseIterableMap) (h : Reachable m) :
    ∃ ks, ChainRepr m ks := by
  induction h with
  | empty => exact ⟨[], chainRepr_empty⟩
  | constructed l m hok =>
    exact addAll_ok_chainRepr l ReverseIterableMap.empty m ⟨[], chainRepr_empty⟩ hok
  | set m k v _ ih =>
    obtain ⟨ks, hks⟩ := ih
    exact chainRepr_set m ks k v hks
  | setFirst m k v _ ih =>
    obtain ⟨ks, hks⟩ := ih
    exact chainRepr_setFirst m ks k v hks
  | delete m k _ ih =>
    obtain ⟨ks, hks⟩ := ih
    exact chainRepr_delete m ks k hks
  | clear m _ _ => exact ⟨[], chainRepr_clear m⟩

theorem valueAt_delete (m : ReverseIterableMap) (k : JSVal)
    (hnd : (m._map.map Prod.fst).Nodup) (x : JSVal) :
    valueAt (m.delete k).1._map x = if x = k then none else valueAt m._map x := by
  cases hk : mapGet m._map k with
  | none =>
    rw [ReverseIterableMap.delete_absent m k hk]
    by_cases h : x = k
    · subst h
      rw [if_pos rfl]
      unfold valueAt
      rw [hk]
      rfl
    · rw [if_neg h]
  | some node =>
    cases hp : node.prevNode with
    | some pk =>
      cases hn : node.nextNode with
      | some nk =>
        rw [ReverseIterableMap.delete_present_mid m k node pk nk hk hp hn]
        show valueAt (mapDrop (setPrevLink (setNextLink m._map pk (some nk)) nk (some pk)) k).1 x = _
        rw [valueAt_mapDrop _ _ (by unfold setPrevLink setNextLink; rw [keys_updEntry, keys_updEntry]; exact hnd),
          valueAt_setPrevLink, valueAt_setNextLink]
      | none =>
        rw [ReverseIterableMap.delete_present_tail m k node pk hk hp hn]
        show valueAt (mapDrop (setNextLink m._map pk none) k).1 x = _
        rw [valueAt_mapDrop _ _ (by unfold setNextLink; rw [keys_updEntry]; exact hnd),
          valueAt_setNextLink]
    | none =>
      cases hn : node.nextNode with
      | some nk =>
        rw [ReverseIterableMap.delete_present_head m k node nk hk hp hn]
        show valueAt (mapDrop (setPrevLink m._map nk none) k).1 x = _
        rw [valueAt_mapDrop _ _ (by unfold setPrevLink; rw [keys_updEntry]; exact hnd),
          valueAt_setPrevLink]
      | none =>
        rw [ReverseIterableMap.delete_present_sole m k node hk hp hn]
        show valueAt (mapDrop m._map k).1 x = _
        rw [valueAt_mapDrop _ _ hnd]

theorem mapGet_isSome_updEntry (f : MapNode → MapNode) (k : JSVal) (mp : NodeMap)
    (x : JSVal) :
    (mapGet (updEntry f k mp) x).isSome = (mapGet mp x).isSome := by
  rw [mapGet_updEntry]
  by_cases h : x = k
  · simp [h, Option.isSome_map']
  · simp [h]

theorem delete_snd (m : ReverseIterableMap) (k : JSVal) :
    (m.delete k).2 = m.has k := by
  cases hk : mapGet m._map k with
  | none =>
    rw [ReverseIterableMap.delete_absent m k hk]
    unfold ReverseIterableMap.has
    rw [hk]
    rfl
  | some node =>
    have hfin : ∀ mp' : NodeMap, (mapGet mp' k).isSome = (mapGet m._map k).isSome →
        (mapDrop mp' k).2 = m.has k := by
      intro mp' hmp
      rw [mapDrop_snd, hmp]
      unfold ReverseIterableMap.has
      rfl
    cases hp : node.prevNode with
    | some pk =>
      cases hn : node.nextNode with
      | some nk =>
        rw [ReverseIterableMap.delete_present_mid m k node pk nk hk hp hn]
        show (mapDrop (setPrevLink (setNextLink m._map pk (some nk)) nk (some pk)) k).2 = _
        refine hfin _ ?_
        unfold setPrevLink setNextLink
        rw [mapGet_isSome_updEntry, mapGet_isSome_updEntry]
      | none =>
        rw [ReverseIterableMap.delete_present_tail m k node pk hk hp hn]
        show (mapDrop (setNextLink m._map pk none) k).2 = _
        refine hfin _ ?_
        unfold setNextLink
        rw [mapGet_isSome_updEntry]
    | none =>
      cases hn : node.nextNode with
      | some nk =>
        rw [ReverseIterableMap.delete_present_head m k node nk hk hp hn]
        show (mapDrop (setPrevLink m._map nk none) k).2 = _
        refine hfin _ ?_
        unfold setPrevLink
        rw [mapGet_isSome_updEntry]
      | none =>
        rw [ReverseIterableMap.delete_present_sole m k node hk hp hn]
        show (mapDrop m._map k).2 = _
        exact hfin _ rfl

theorem delete_size (m : ReverseIterableMap) (k : JSVal) :
    (m.delete k).1.size = if m.has k then m.size - 1 else m.size := by
  cases hk : mapGet m._map k with
  | none =>
    rw [ReverseIterableMap.delete_absent m k hk]
    unfold ReverseIterableMap.has
    rw [hk]
    rfl
  | some node =>
    have hhas : m.has k = true := by unfold ReverseIterableMap.has; rw [hk]; rfl
    rw [hhas, if_pos rfl]
    have hfin : ∀ mp' : NodeMap, (mapGet mp' k).isSome = (mapGet m._map k).isSome →
        mp'.length = m._map.length → (mapDrop mp' k).1.length = m._map.length - 1 := by
      intro mp' hmp hl
      rw [mapDrop_length, hmp, hk]
      simp [hl]
    cases hp : node.prevNode with
    | some pk =>
      cases hn : node.nextNode with
      | some nk =>
        rw [ReverseIterableMap.delete_present_mid m k node pk nk hk hp hn]
        show (mapDrop (setPrevLink (setNextLink m._map pk (some nk)) nk (some pk)) k).1.length = _
        refine hfin _ ?_ ?_
        · unfold setPrevLink setNextLink
          rw [mapGet_isSome_updEntry, mapGet_isSome_updEntry]
        · unfold setPrevLink setNextLink
          rw [updEntry_length, updEntry_length]
      | none =>
        rw [ReverseIterableMap.delete_present_tail m k node pk hk hp hn]
        show (mapDrop (setNextLink m._map pk none) k).1.length = _
        refine hfin _ ?_ ?_
        · unfold setNextLink
          rw [mapGet_isSome_updEntry]
        · unfold setNextLink
          rw [updEntry_length]
    | none =>
      cases hn : node.nextNode with
      | some nk =>
        rw [ReverseIterableMap.delete_present_head m k node nk hk hp hn]
        show (mapDrop (setPrevLink m._map nk none) k).1.length = _
        refine hfin _ ?_ ?_
        · unfold setPrevLink
          rw [mapGet_isSome_updEntry]
        · unfold setPrevLink
          rw [updEntry_length]
      | none =>
        rw [ReverseIterableMap.delete_present_sole m k node hk hp hn]
        show (mapDrop m._map k).1.length = _
        exact hfin _ rfl rfl

theorem chainRepr_node_view (m : ReverseIterableMap) (l r : List JSVal) (x : JSVal)
    (h : ChainRepr m (l ++ x :: r)) (nd : MapNode) (hx : mapGet m._map x = some nd) :
    nd.key = x ∧ nd.prevNode = lastOr l none ∧ nd.nextNode = headOr r none := by
  have hseg := h.seg
  rw [segOK_append] at hseg
  obtain ⟨-, hsegxr⟩ := hseg
  obtain ⟨hnodex, -⟩ := hsegxr
  unfold nodeOK linksAt at hnodex
  rw [hx] at hnodex
  simpa [Prod.ext_iff] using hnodex

theorem chainRepr_prev_none_iff (m : ReverseIterableMap) (ks : List JSVal)
    (h : ChainRepr m ks) (x : JSVal) (nd : MapNode) (hx : mapGet m._map x = some nd) :
    nd.prevNode = none ↔ m._firstNode = some x := by
  have hxin : x ∈ ks := by
    rw [← chainRepr_mem_iff m ks h x, hx]
    rfl
  obtain ⟨l, r, hlr⟩ := List.append_of_mem hxin
  subst hlr
  obtain ⟨hkey, hprev, hnext⟩ := chainRepr_node_view m l r x h nd hx
  rw [hprev, h.first_eq]
  constructor
  · intro hl
    have hnil : l = [] := (lastOr_eq_none_iff l).mp hl
    subst hnil
    rfl
  · intro hf
    cases l with
    | nil => rfl
    | cons y l₁ =>
      exfalso
      have hy : y = x := by
        have hh : headOr ((y :: l₁) ++ x :: r) none = some y := rfl
        rw [hh] at hf
        exact Option.some.inj hf
      have hnd := h.nodup
      rw [List.nodup_append] at hnd
      exact hnd.2.2 (show x ∈ y :: l₁ from hy ▸ List.mem_cons_self y l₁)
        (List.mem_cons_self x r)

theorem chainRepr_next_none_iff (m : ReverseIterableMap) (ks : List JSVal)
    (h : ChainRepr m ks) (x : JSVal) (nd : MapNode) (hx : mapGet m._map x = some nd) :
    nd.nextNode = none ↔ m._lastNode = some x := by
  have hxin : x ∈ ks := by
    rw [← chainRepr_mem_iff m ks h x, hx]
    rfl
  obtain ⟨l, r, hlr⟩ := List.append_of_mem hxin
  subst hlr
  obtain ⟨hkey, hprev, hnext⟩ := chainRepr_node_view m l r x h nd hx
  rw [hnext, h.last_eq]
  constructor
  · intro hr
    have hnil : r = [] := (headOr_eq_none_iff r).mp hr
    subst hnil
    exact lastOr_concat l x none
  · intro hf
    cases r with
    | nil => rfl
    | cons y r₁ =>
      exfalso
      have hlst : lastOr (l ++ x :: y :: r₁) none = lastOr (y :: r₁) none := by
        rw [lastOr_append]
        rfl
      rw [hlst] at hf
      obtain ⟨r₀, hr₀⟩ := lastOr_eq_some (y :: r₁) x hf
      have hxr : x ∈ y :: r₁ := by
        rw [hr₀]
        simp
      have hnd := h.nodup
      rw [List.nodup_append] at hnd
      have hndxr := hnd.2.1
      rw [List.nodup_cons] at hndxr
      exact hndxr.1 hxr

/-! ## Traversal results -/

/-- The projected output for the node registered under `k`. -/
def projAtKey (mp : NodeMap) (proj : Proj) (k : JSVal) : JSVal :=
  match mapGet mp k with
  | some n => projVal proj n
  | none => .undef

theorem drain_forward (m : ReverseIterableMap) (proj : Proj) :
    ∀ (r : List JSVal) (prev : Option JSVal) (fuel : Nat) (it : IterState),
      it.proj = proj → it.forwards = true → it.currentNode = headOr r none →
      SegOK m._map prev r none →
      r.length ≤ fuel →
      (∀ x ∈ r, projAtKey m._map proj x ≠ JSVal.undef) →
      IterState.drain m fuel it = r.map (projAtKey m._map proj) := by
  intro r
  induction r with
  | nil =>
    intro prev fuel it hproj hfwd hcur hseg hfuel hnu
    cases fuel with
    | zero => rfl
    | succ f =>
      have hstep : IterState.next m it = (it, JSVal.undef, true) := by
        unfold IterState.next
        rw [hcur]
        rfl
      unfold IterState.drain
      rw [hstep]
      rfl
  | cons k r' ih =>
    intro prev fuel it hproj hfwd hcur hseg hfuel hnu
    obtain ⟨hnodek, hseg'⟩ := hseg
    unfold nodeOK linksAt at hnodek
    rw [Option.map_eq_some'] at hnodek
    obtain ⟨nd, hget, hview⟩ := hnodek
    obtain ⟨hkey, hprev, hnext⟩ :
        nd.key = k ∧ nd.prevNode = prev ∧ nd.nextNode = headOr r' none := by
      simpa [Prod.ext_iff] using hview
    cases fuel with
    | zero => simp at hfuel
    | succ f =>
      have hprojk : projAtKey m._map proj k = projVal proj nd := by
        unfold projAtKey
        rw [hget]
      have hne : projVal proj nd ≠ JSVal.undef := by
        rw [← hprojk]
        exact hnu k (List.mem_cons_self k r')
      have hbeq : (projVal proj nd == JSVal.undef) = false := beq_eq_false_iff_ne.mpr hne
      obtain ⟨p, s, ln, c, fw⟩ := it
      simp only at hproj hfwd hcur
      subst hproj
      subst hfwd
      subst hcur
      have hstep : IterState.next m ⟨p, s, ln, headOr (k :: r') none, true⟩
          = (⟨p, s, ln, nd.nextNode, true⟩, projVal p nd, false) := by
        unfold IterState.next
        rw [show headOr (k :: r') none = some k from rfl]
        simp only [hget, hbeq]
        rfl
      unfold IterState.drain
      rw [hstep]
      show projVal p nd :: IterState.drain m f ⟨p, s, ln, nd.nextNode, true⟩
        = (k :: r').map (projAtKey m._map p)
      rw [hnext, ih (some k) f ⟨p, s, ln, headOr r' none, true⟩ rfl rfl rfl hseg'
        (Nat.succ_le_succ_iff.mp hfuel) (fun x hx => hnu x (List.mem_cons_of_mem k hx))]
      rw [List.map_cons, hprojk]

theorem drain_backward (m : ReverseIterableMap) (proj : Proj) :
    ∀ (l : List JSVal) (follow : Option JSVal) (fuel : Nat) (it : IterState),
      it.proj = proj → it.forwards = false → it.currentNode = lastOr l none →
      SegOK m._map none l follow →
      l.length ≤ fuel →
      (∀ x ∈ l, projAtKey m._map proj x ≠ JSVal.undef) →
      IterState.drain m fuel it = (l.map (projAtKey m._map proj)).reverse := by
  intro l
  induction l using List.reverseRecOn with
  | nil =>
    intro follow fuel it hproj hbwd hcur hseg hfuel hnu
    cases fuel with
    | zero => rfl
    | succ f =>
      have hstep : IterState.next m it = (it, JSVal.undef, true) := by
        unfold IterState.next
        rw [hcur]
        rfl
      unfold IterState.drain
      rw [hstep]
      rfl
  | append_singleton l' k ih =>
    intro follow fuel it hproj hbwd hcur hseg hfuel hnu
    rw [segOK_append] at hseg
    obtain ⟨hsegl', hsegk⟩ := hseg
    obtain ⟨hnodek, -⟩ := hsegk
    -- hnodek : nodeOK m._map (lastOr l' none) k (headOr [] follow)
    unfold nodeOK linksAt at hnodek
    rw [Option.map_eq_some'] at hnodek
    obtain ⟨nd, hget, hview⟩ := hnodek
    obtain ⟨hkey, hprev, hnext⟩ :
        nd.key = k ∧ nd.prevNode = lastOr l' none ∧ nd.nextNode = headOr [] follow := by
      simpa [Prod.ext_iff] using hview
    cases fuel with
    | zero =>
      rw [List.length_append] at hfuel
      simp at hfuel
    | succ f =>
      have hprojk : projAtKey m._map proj k = projVal proj nd := by
        unfold projAtKey
        rw [hget]
      have hne : projVal proj nd ≠ JSVal.undef := by
        rw [← hprojk]
        exact hnu k (by simp)
      have hbeq : (projVal proj nd == JSVal.undef) = false := beq_eq_false_iff_ne.mpr hne
      obtain ⟨p, s, ln, c, fw⟩ := it
      simp only at hproj hbwd hcur
      subst hproj
      subst hbwd
      subst hcur
      have hstep : IterState.next m ⟨p, s, ln, lastOr (l' ++ [k]) none, false⟩
          = (⟨p, s, ln, nd.prevNode, false⟩, projVal p nd, false) := by
        unfold IterState.next
        rw [show lastOr (l' ++ [k]) none = some k from lastOr_concat l' k none]
        simp only [hget, hbeq]
        rfl
      unfold IterState.drain
      rw [hstep]
      show projVal p nd :: IterState.drain m f ⟨p, s, ln, nd.prevNode, false⟩
        = ((l' ++ [k]).map (projAtKey m._map p)).reverse
      have hfuel' : l'.length ≤ f := by
        rw [List.length_append] at hfuel
        simp at hfuel
        omega
      rw [hprev, ih (some k) f ⟨p, s, ln, lastOr l' none, false⟩ rfl rfl rfl hsegl'
        hfuel' (fun x hx => hnu x (List.mem_append_left _ hx))]
      rw [List.map_append, List.reverse_append]
      rw [List.map_cons, List.map_nil, List.reverse_cons, List.reverse_nil,
        List.nil_append, List.singleton_append, hprojk]

theorem chainRepr_projAtKey_pairs (m : ReverseIterableMap) (ks : List JSVal)
    (h : ChainRepr m ks) (x : JSVal) (hx : x ∈ ks) :
    projAtKey m._map Proj.pairs x = JSVal.arr [x, m.get x] := by
  obtain ⟨l, r, hlr⟩ := List.append_of_mem hx
  subst hlr
  have hsome : (mapGet m._map x).isSome = true := (chainRepr_mem_iff m _ h x).mpr hx
  obtain ⟨nd, hnd⟩ := Option.isSome_iff_exists.mp hsome
  obtain ⟨hkey, -, -⟩ := chainRepr_node_view m l r x h nd hnd
  unfold projAtKey
  rw [hnd]
  show JSVal.arr [nd.key, nd.value] = JSVal.arr [x, m.get x]
  rw [hkey]
  unfold ReverseIterableMap.get
  rw [hnd]

theorem next_preserves_fields (m : ReverseIterableMap) (it : IterState) :
    (IterState.next m it).1.proj = it.proj ∧
    (IterState.next m it).1.startNode = it.startNode ∧
    (IterState.next m it).1.lastNode = it.lastNode := by
  unfold IterState.next
  cases hc : it.currentNode with
  | none => exact ⟨rfl, rfl, rfl⟩
  | some ck =>
    cases hg : mapGet m._map ck with
    | none => simp [hg]
    | some nd => simp [hg]

theorem nextN_preserves_fields (m : ReverseIterableMap) (n : Nat) (it : IterState) :
    (IterState.nextN m n it).proj = it.proj ∧
    (IterState.nextN m n it).startNode = it.startNode ∧
    (IterState.nextN m n it).lastNode = it.lastNode := by
  induction n generalizing it with
  | zero => exact ⟨rfl, rfl, rfl⟩
  | succ n ih =>
    obtain ⟨h1, h2, h3⟩ := ih (IterState.next m it).1
    obtain ⟨g1, g2, g3⟩ := next_preserves_fields m it
    exact ⟨h1.trans g1, h2.trans g2, h3.trans g3⟩

theorem addAll_error_iff (l : List JSVal) :
    ∀ m : ReverseIterableMap,
      (m.addAll l = Except.error "iterable for Map should have array-like objects")
        ↔ ∃ x ∈ l, x.isArray = false := by
  induction l with
  | nil =>
    intro m
    simp [ReverseIterableMap.addAll]
  | cons e rest ih =>
    intro m
    by_cases he : e.isArray
    · rw [show m.addAll (e :: rest) = (m.set (e.idx 0) (e.idx 1)).addAll rest from by
        simp [ReverseIterableMap.addAll, he]]
      rw [ih]
      constructor
      · rintro ⟨x, hx, hxa⟩
        exact ⟨x, List.mem_cons_of_mem e hx, hxa⟩
      · rintro ⟨x, hx, hxa⟩
        rcases List.mem_cons.mp hx with hxe | hxr
        · subst hxe
          rw [he] at hxa
          cases hxa
        · exact ⟨x, hxr, hxa⟩
    · rw [show m.addAll (e :: rest)
          = Except.error "iterable for Map should have array-like objects" from by
        simp [ReverseIterableMap.addAll, he]]
      simp only [true_iff]
      exact ⟨e, List.mem_cons_self e rest, by simpa using he⟩

theorem addAll_isOk_iff (l : List JSVal) :
    ∀ m : ReverseIterableMap,
      (∃ m', m.addAll l = Except.ok m') ↔ ∀ x ∈ l, x.isArray = true := by
  induction l with
  | nil =>
    intro m
    simp [ReverseIterableMap.addAll]
  | cons e rest ih =>
    intro m
    by_cases he : e.isArray
    · rw [show m.addAll (e :: rest) = (m.set (e.idx 0) (e.idx 1)).addAll rest from by
        simp [ReverseIterableMap.addAll, he]]
      rw [ih]
      constructor
      · intro hall x hx
        rcases List.mem_cons.mp hx with hxe | hxr
        · subst hxe; exact he
        · exact hall x hxr
      · intro hall x hx
        exact hall x (List.mem_cons_of_mem e hx)
    · rw [show m.addAll (e :: rest)
          = Except.error "iterable for Map should have array-like objects" from by
        simp [ReverseIterableMap.addAll, he]]
      constructor
      · rintro ⟨m', hm'⟩
        cases hm'
      · intro hall
        exact absurd (hall e (List.mem_cons_self e rest)) (by simpa using he)

theorem addAll_first_error (l₁ : List JSVal) :
    ∀ (m : ReverseIterableMap) (x : JSVal) (l₂ : List JSVal),
      (∀ y ∈ l₁, y.isArray = true) → x.isArray = false →
      m.addAll (l₁ ++ x :: l₂)
        = Except.error "iterable for Map should have array-like objects" := by
  induction l₁ with
  | nil =>
    intro m x l₂ _ hx
    simp [ReverseIterableMap.addAll, hx]
  | cons e rest ih =>
    intro m x l₂ hall hx
    have he : e.isArray = true := hall e (List.mem_cons_self e rest)
    rw [show (e :: rest) ++ x :: l₂ = e :: (rest ++ x :: l₂) from rfl]
    rw [show m.addAll (e :: (rest ++ x :: l₂))
        = (m.set (e.idx 0) (e.idx 1)).addAll (rest ++ x :: l₂) from by
      simp [ReverseIterableMap.addAll, he]]
    exact ih _ x l₂ (fun y hy => hall y (List.mem_cons_of_mem e hy)) hx

/-! ## Concrete sample states used by witnesses and counterexamples -/

/-- A one-entry map: `new ReverseIterableMap().set(1, 'a')`. -/
def sampleMap : ReverseIterableMap :=
  ReverseIterableMap.empty.set (JSVal.num 1) (JSVal.str "a")

/-- A two-entry map whose second value is `undefined`:
`new ReverseIterableMap().set(1, 'a').set(2, undefined)`. -/
def sampleMapU : ReverseIterableMap :=
  (ReverseIterableMap.empty.set (JSVal.num 1) (JSVal.str "a")).set (JSVal.num 2) JSVal.undef

/-- A map whose sole value is `undefined`: `set('key', undefined)` (the
test suite's own example of an `undefined` value). -/
def sampleMapKU : ReverseIterableMap :=
  ReverseIterableMap.empty.set (JSVal.str "key") JSVal.undef

theorem sampleMap_chainRepr : ChainRepr sampleMap [JSVal.num 1] := by
  refine ⟨by decide, by decide, rfl, rfl, ?_⟩
  exact ⟨rfl, trivial⟩

theorem sampleMapU_chainRepr : ChainRepr sampleMapU [JSVal.num 1, JSVal.num 2] := by
  refine ⟨by decide, by decide, rfl, rfl, ?_⟩
  exact ⟨rfl, rfl, trivial⟩

/-! ## The claims -/

/-- C1 counterexample: on the one-entry map `{1 ↦ 'a'}`, key `2` is absent,
yet the first `next()` of `iteratorFor(2)` does **not** yield the terminal
result: it produces the entry `[1, 'a']` with `done = false`, because the
`undefined` start node falls back to `this._firstNode` inside
`_iterableIterator`.  This refutes the claim that the iterator immediately
terminates and produces no entry. -/
theorem C1_counterexample :
    sampleMap.has (JSVal.num 2) = false ∧
    (IterState.next sampleMap (sampleMap.iteratorFor (JSVal.num 2))).2.2 = false ∧
    (IterState.next sampleMap (sampleMap.iteratorFor (JSVal.num 2))).2.1
      = JSVal.arr [JSVal.num 1, JSVal.str "a"] := by
  refine ⟨by decide, by decide, by decide⟩

/-- C1 (amended): `iteratorFor(key)` on an absent key passes `undefined` as
the start node, and `_iterableIterator` then falls back to
`this._firstNode`: the returned iterator is identical to the one `entries()`
returns, so it traverses the whole map from the head (and is immediately
exhausted only when the map is empty). -/
theorem C1_iteratorFor_missing_key_equals_entries (m : ReverseIterableMap) (k : JSVal)
    (h : m.has k = false) :
    m.iteratorFor k = m.entries := by
  unfold ReverseIterableMap.iteratorFor ReverseIterableMap.entries
  cases hm : mapGet m._map k with
  | none => rfl
  | some nd =>
    unfold ReverseIterableMap.has at h
    rw [hm] at h
    cases h

/-- C1 witness: the amended claim at the concrete input `{1 ↦ 'a'}`, key 2. -/
theorem C1_witness :
    sampleMap.iteratorFor (JSVal.num 2) = sampleMap.entries :=
  C1_iteratorFor_missing_key_equals_entries sampleMap (JSVal.num 2) (by decide)

/-- C2 counterexample: on the map `{'key' ↦ undefined}` (an entry the test
suite itself creates), the `values()` iterator's cursor is the non-null
node for `'key'`, yet its very first `next()` returns `done = true`: the
source computes `done` as `value === undefined`, not from the cursor.
This refutes "done = true is returned exactly when the cursor is null" and
"an entry whose stored value is undefined is still produced with
done = false". -/
theorem C2_counterexample :
    (sampleMapKU.values).currentNode = some (JSVal.str "key") ∧
    (IterState.next sampleMapKU (sampleMapKU.values)).2.2 = true := by
  refine ⟨by decide, by decide⟩

/-- C2 (amended): `next()` decides termination by testing the projected
value against `undefined`, not structurally by the cursor: the `done` flag
is true exactly when the returned value is `undefined`; a null cursor
returns the unchanged state with `(undefined, done = true)`; a non-null
cursor always projects the node and advances, returning
`done = (projected value === undefined)` — so a `keys()`/`values()` entry
projecting to `undefined` is reported as terminal even though the cursor
was non-null (for the pair projection the projected value is an array and
never `undefined`, so there the test coincides with cursor-null). -/
theorem C2_next_done_by_undefined_value (m : ReverseIterableMap) (it : IterState) :
    ((IterState.next m it).2.2 = true ↔ (IterState.next m it).2.1 = JSVal.undef) ∧
    (it.currentNode = none → IterState.next m it = (it, JSVal.undef, true)) ∧
    (∀ ck nd, it.currentNode = some ck → mapGet m._map ck = some nd →
      IterState.next m it =
        ({ it with currentNode := if it.forwards then nd.nextNode else nd.prevNode },
          projVal it.proj nd, projVal it.proj nd == JSVal.undef)) ∧
    (∀ ck nd, it.currentNode = some ck → mapGet m._map ck = some nd →
      it.proj = Proj.pairs → (IterState.next m it).2.2 = false) := by
  refine ⟨?_, ?_, ?_, ?_⟩
  · show ((match it.currentNode with
      | some ck =>
        match mapGet m._map ck with
        | some node =>
          ({ it with currentNode := if it.forwards then node.nextNode else node.prevNode },
            projVal it.proj node)
        | none => (it, JSVal.undef)
      | none => (it, JSVal.undef) : IterState × JSVal).2 == JSVal.undef) = true ↔ _
    exact beq_iff_eq
  · intro h
    unfold IterState.next
    rw [h]
    rfl
  · intro ck nd h1 h2
    unfold IterState.next
    rw [h1]
    simp only [h2]
  · intro ck nd h1 h2 h3
    unfold IterState.next
    rw [h1]
    simp only [h2]
    show (projVal it.proj nd == JSVal.undef) = false
    rw [h3]
    exact beq_eq_false_iff_ne.mpr (by unfold projVal; intro hcon; cases hcon)

/-- C2 witness: the characterization applied to the concrete map
`{'key' ↦ undefined}` and its `values()` iterator: the non-null cursor is
projected to `undefined` and `done = true` is returned while the cursor
still advances past the node. -/
theorem C2_witness :
    IterState.next sampleMapKU (sampleMapKU.values) =
      ({ sampleMapKU.values with currentNode := none }, JSVal.undef, true) := by
  have h := (C2_next_done_by_undefined_value sampleMapKU (sampleMapKU.values)).2.2.1
    (JSVal.str "key") ⟨JSVal.str "key", JSVal.undef, none, none⟩ rfl rfl
  rw [h]
  rfl

/-- C3: on a well-formed map, `set(k, v)` and `setFirst(k, v)` with `k`
already present produce the identical state: only the node's value is
overwritten in place; the chain order `ks` is unchanged (same `ChainRepr`
witness list), `_firstNode`, `_lastNode` and `size` are untouched, `k` now
maps to `v`, and every other key's value is unchanged. -/
theorem C3_update_in_place (m : ReverseIterableMap) (ks : List JSVal) (k v : JSVal)
    (hrep : ChainRepr m ks) (hk : m.has k = true) :
    m.set k v = m.setFirst k v ∧
    ChainRepr (m.set k v) ks ∧
    (m.set k v)._firstNode = m._firstNode ∧
    (m.set k v)._lastNode = m._lastNode ∧
    (m.set k v).size = m.size ∧
    (m.set k v).get k = v ∧
    (∀ x, x ≠ k → (m.set k v).get x = m.get x) := by
  have hk' : (mapGet m._map k).isSome = true := hk
  obtain ⟨nd, hnd⟩ := Option.isSome_iff_exists.mp hk'
  refine ⟨?_, chainRepr_set_present m ks k v hrep hk', ?_, ?_, ?_, ?_, ?_⟩
  · rw [ReverseIterableMap.set_present m k v hk', ReverseIterableMap.setFirst_present m k v hk']
  · rw [ReverseIterableMap.set_present m k v hk']
  · rw [ReverseIterableMap.set_present m k v hk']
  · rw [ReverseIterableMap.set_present m k v hk']
    show (setValueAt m._map k v).length = m._map.length
    exact updEntry_length _ _ _
  · rw [ReverseIterableMap.set_present m k v hk']
    rw [get_eq_valueAt]
    show (valueAt (setValueAt m._map k v) k).getD JSVal.undef = v
    rw [valueAt_setValueAt, if_pos rfl, hnd]
    rfl
  · intro x hx
    rw [ReverseIterableMap.set_present m k v hk']
    rw [get_eq_valueAt, get_eq_valueAt]
    show (valueAt (setValueAt m._map k v) x).getD JSVal.undef = _
    rw [valueAt_setValueAt, if_neg hx]

/-- C3 witness: updating the present key 1 of `{1 ↦ 'a'}` with value `'b'`
through either insert variant. -/
theorem C3_witness :
    sampleMap.set (JSVal.num 1) (JSVal.str "b")
        = sampleMap.setFirst (JSVal.num 1) (JSVal.str "b") ∧
    ChainRepr (sampleMap.set (JSVal.num 1) (JSVal.str "b")) [JSVal.num 1] ∧
    (sampleMap.set (JSVal.num 1) (JSVal.str "b"))._firstNode = sampleMap._firstNode ∧
    (sampleMap.set (JSVal.num 1) (JSVal.str "b"))._lastNode = sampleMap._lastNode ∧
    (sampleMap.set (JSVal.num 1) (JSVal.str "b")).size = sampleMap.size ∧
    (sampleMap.set (JSVal.num 1) (JSVal.str "b")).get (JSVal.num 1) = JSVal.str "b" ∧
    (∀ x, x ≠ JSVal.num 1 →
      (sampleMap.set (JSVal.num 1) (JSVal.str "b")).get x = sampleMap.get x) :=
  C3_update_in_place sampleMap [JSVal.num 1] (JSVal.num 1) (JSVal.str "b")
    sampleMap_chainRepr (by decide)

/-- C4: every state reachable from an empty or validly constructed map by
`set` / `setFirst` / `delete` / `clear` satisfies the chain invariant:
there is a key list `ks` (the chain order), without duplicates (the chain
is a single acyclic path), whose members are exactly the keys of the hash
index (the chain's node set equals the index's value set), with
`_firstNode` referencing its head and `_lastNode` its tail, consecutive
nodes linked by `prevNode`/`nextNode` (`SegOK`), and — for every registered
node — `prevNode = null` exactly when `_firstNode` references it and
`nextNode = null` exactly when `_lastNode` references it (so exactly one
node, or none when empty, has each null link). -/
theorem C4_chain_invariant (m : ReverseIterableMap) (h : Reachable m) :
    ∃ ks : List JSVal,
      ks.Nodup ∧
      (m._map.map Prod.fst).Perm ks ∧
      m._firstNode = headOr ks none ∧
      m._lastNode = lastOr ks none ∧
      SegOK m._map none ks none ∧
      (∀ x nd, mapGet m._map x = some nd → (nd.prevNode = none ↔ m._firstNode = some x)) ∧
      (∀ x nd, mapGet m._map x = some nd → (nd.nextNode = none ↔ m._lastNode = some x)) := by
  obtain ⟨ks, hks⟩ := reachable_chainRepr m h
  exact ⟨ks, hks.nodup, hks.perm, hks.first_eq, hks.last_eq, hks.seg,
    fun x nd hx => chainRepr_prev_none_iff m ks hks x nd hx,
    fun x nd hx => chainRepr_next_none_iff m ks hks x nd hx⟩

/-- C4 witness: the invariant at the concrete reachable state
`empty.set(1, 'a').setFirst(0, 'z').delete(1)`. -/
theorem C4_witness :
    ∃ ks : List JSVal,
      ks.Nodup ∧
      ((((ReverseIterableMap.empty.set (JSVal.num 1) (JSVal.str "a")).setFirst
          (JSVal.num 0) (JSVal.str "z")).delete (JSVal.num 1)).1._map.map Prod.fst).Perm ks ∧
      (((ReverseIterableMap.empty.set (JSVal.num 1) (JSVal.str "a")).setFirst
          (JSVal.num 0) (JSVal.str "z")).delete (JSVal.num 1)).1._firstNode = headOr ks none ∧
      (((ReverseIterableMap.empty.set (JSVal.num 1) (JSVal.str "a")).setFirst
          (JSVal.num 0) (JSVal.str "z")).delete (JSVal.num 1)).1._lastNode = lastOr ks none ∧
      SegOK (((ReverseIterableMap.empty.set (JSVal.num 1) (JSVal.str "a")).setFirst
          (JSVal.num 0) (JSVal.str "z")).delete (JSVal.num 1)).1._map none ks none ∧
      (∀ x nd,
        mapGet (((ReverseIterableMap.empty.set (JSVal.num 1) (JSVal.str "a")).setFirst
          (JSVal.num 0) (JSVal.str "z")).delete (JSVal.num 1)).1._map x = some nd →
        (nd.prevNode = none ↔
          (((ReverseIterableMap.empty.set (JSVal.num 1) (JSVal.str "a")).setFirst
            (JSVal.num 0) (JSVal.str "z")).delete (JSVal.num 1)).1._firstNode = some x)) ∧
      (∀ x nd,
        mapGet (((ReverseIterableMap.empty.set (JSVal.num 1) (JSVal.str "a")).setFirst
          (JSVal.num 0) (JSVal.str "z")).delete (JSVal.num 1)).1._map x = some nd →
        (nd.nextNode = none ↔
          (((ReverseIterableMap.empty.set (JSVal.num 1) (JSVal.str "a")).setFirst
            (JSVal.num 0) (JSVal.str "z")).delete (JSVal.num 1)).1._lastNode = some x)) :=
  C4_chain_invariant _
    (Reachable.delete _ (JSVal.num 1)
      (Reachable.setFirst _ (JSVal.num 0) (JSVal.str "z")
        (Reachable.set _ (JSVal.num 1) (JSVal.str "a") Reachable.empty)))

/-- C5: on a well-formed map, deleting an absent key returns
`(unchanged map, false)`; deleting a present key `k` (chain order
`l ++ k :: r`) returns `true`, removes exactly that entry (`has k` becomes
false, `size` drops by exactly 1), and leaves every other entry present
with its value and the relative order `l ++ r` of the remaining entries
unchanged. -/
theorem C5_delete_semantics (m : ReverseIterableMap) (ks : List JSVal) (k : JSVal)
    (hrep : ChainRepr m ks) :
    (m.has k = false → m.delete k = (m, false)) ∧
    (∀ l r, ks = l ++ k :: r →
      (m.delete k).2 = true ∧
      ChainRepr (m.delete k).1 (l ++ r) ∧
      (m.delete k).1.has k = false ∧
      (m.delete k).1.size = m.size - 1 ∧
      (∀ x, x ≠ k → (m.delete k).1.get x = m.get x ∧ (m.delete k).1.has x = m.has x)) := by
  constructor
  · intro hk
    have hnone : mapGet m._map k = none := by
      unfold ReverseIterableMap.has at hk
      exact Option.not_isSome_iff_eq_none.mp (by rw [hk]; exact Bool.false_ne_true)
    exact ReverseIterableMap.delete_absent m k hnone
  · intro l r hks
    subst hks
    have hkin : k ∈ l ++ k :: r := by simp
    have hhas : m.has k = true := (chainRepr_mem_iff m _ hrep k).mpr hkin
    have hnd : (m._map.map Prod.fst).Nodup := hrep.perm.nodup_iff.mpr hrep.nodup
    refine ⟨?_, chainRepr_delete_present m l r k hrep, ?_, ?_, ?_⟩
    · rw [delete_snd, hhas]
    · rw [has_eq_valueAt, valueAt_delete m k hnd, if_pos rfl]
      rfl
    · rw [delete_size, hhas]
      rfl
    · intro x hx
      constructor
      · rw [get_eq_valueAt, get_eq_valueAt, valueAt_delete m k hnd, if_neg hx]
      · rw [has_eq_valueAt, has_eq_valueAt, valueAt_delete m k hnd, if_neg hx]

/-- C5 witness: both halves at the two-entry map `{1 ↦ 'a', 2 ↦ undefined}`,
deleting the present key 1 (chain decomposition `[] ++ 1 :: [2]`) and
checking the absent-key half at key 7. -/
theorem C5_witness :
    (sampleMapU.delete (JSVal.num 7) = (sampleMapU, false)) ∧
    (sampleMapU.delete (JSVal.num 1)).2 = true ∧
    ChainRepr (sampleMapU.delete (JSVal.num 1)).1 ([] ++ [JSVal.num 2]) ∧
    (sampleMapU.delete (JSVal.num 1)).1.has (JSVal.num 1) = false ∧
    (sampleMapU.delete (JSVal.num 1)).1.size = sampleMapU.size - 1 := by
  have ha := C5_delete_semantics sampleMapU [JSVal.num 1, JSVal.num 2] (JSVal.num 7)
    sampleMapU_chainRepr
  have hp := (C5_delete_semantics sampleMapU [JSVal.num 1, JSVal.num 2] (JSVal.num 1)
    sampleMapU_chainRepr).2 [] [JSVal.num 2] rfl
  exact ⟨ha.1 (by decide), hp.1, hp.2.1, hp.2.2.1, hp.2.2.2.1⟩

/-- C6: bulk construction fails with the `TypeError`-class error
`'iterable for Map should have array-like objects'` exactly when some
element of the iterable is not an array, and succeeds exactly when every
element is an array (of any length — `[[1,2,3]]` is accepted while
`[1,2,3]` is rejected); with an all-array prefix before the first
non-array element, the error is raised there regardless of what follows,
and it propagates out of construction uncaught. -/
theorem C6_constructor_validation :
    (∀ l : List JSVal,
      ReverseIterableMap.fromIterable l
          = Except.error "iterable for Map should have array-like objects"
        ↔ ∃ x ∈ l, x.isArray = false) ∧
    (∀ l : List JSVal,
      (∃ m, ReverseIterableMap.fromIterable l = Except.ok m)
        ↔ ∀ x ∈ l, x.isArray = true) ∧
    (∀ (l₁ : List JSVal) (x : JSVal) (l₂ : List JSVal),
      (∀ y ∈ l₁, y.isArray = true) → x.isArray = false →
      ReverseIterableMap.fromIterable (l₁ ++ x :: l₂)
        = Except.error "iterable for Map should have array-like objects") ∧
    (∃ m, ReverseIterableMap.fromIterable [JSVal.arr [JSVal.num 1, JSVal.num 2, JSVal.num 3]]
        = Except.ok m) ∧
    ReverseIterableMap.fromIterable [JSVal.num 1, JSVal.num 2, JSVal.num 3]
      = Except.error "iterable for Map should have array-like objects" := by
  refine ⟨?_, ?_, ?_, ?_, ?_⟩
  · intro l
    exact addAll_error_iff l ReverseIterableMap.empty
  · intro l
    exact addAll_isOk_iff l ReverseIterableMap.empty
  · intro l₁ x l₂ h1 h2
    exact addAll_first_error l₁ ReverseIterableMap.empty x l₂ h1 h2
  · exact ⟨ReverseIterableMap.empty.set (JSVal.num 1) (JSVal.num 2), rfl⟩
  · rfl

/-- C7: `reverseIterator()` called on any iterator produced by
`_iterableIterator` — after any number `n` of `next()` calls — resets the
cursor to the captured start node when one was given, or to the `lastNode`
captured at iterator creation otherwise, flips the direction to backward,
and keeps the iterator's own configuration (`proj`, `startNode`,
`lastNode`) intact: the result is exactly the state `reverseIterator()`
produces on the freshly created iterator, i.e. the same iterator object
rewound, not a fresh one built from the current cursor. -/
theorem C7_reverseIterator_resets (m : ReverseIterableMap) (proj : Proj)
    (s : Option JSVal) (n : Nat) :
    IterState.reverseIterator (IterState.nextN m n (m._iterableIterator proj s))
      = { proj := proj, startNode := s, lastNode := m._lastNode,
          currentNode := match s with | some x => some x | none => m._lastNode,
          forwards := false } ∧
    IterState.reverseIterator (IterState.nextN m n (m._iterableIterator proj s))
      = IterState.reverseIterator (m._iterableIterator proj s) := by
  obtain ⟨h1, h2, h3⟩ := nextN_preserves_fields m n (m._iterableIterator proj s)
  rcases hN : IterState.nextN m n (m._iterableIterator proj s) with ⟨p', s', ln', c', fw'⟩
  rw [hN] at h1 h2 h3
  simp only at h1 h2 h3
  subst h1
  subst h2
  subst h3
  exact ⟨rfl, rfl⟩

/-- C8 counterexample: on `{1 ↦ 'a', 2 ↦ undefined}` the fully consumed
forward `values()` sequence is `['a']` (consumption stops at the
`undefined` projection), while the backward `values()` sequence is `[]`,
so reversing the forward sequence does not give the backward sequence.
This refutes the round-trip claim for `values()` (and symmetrically
`keys()`) when a projected element is `undefined`. -/
theorem C8_counterexample :
    IterState.drain sampleMapU 2 (sampleMapU.values) = [JSVal.str "a"] ∧
    IterState.drain sampleMapU 2 ((sampleMapU.values).reverseIterator) = [] ∧
    ¬((IterState.drain sampleMapU 2 (sampleMapU.values)).reverse
        = IterState.drain sampleMapU 2 ((sampleMapU.values).reverseIterator)) := by
  refine ⟨by decide, by decide, by decide⟩

/-- C8 (amended): for a map left unmodified during iteration, the reversal
of the fully consumed forward sequence equals the fully consumed backward
sequence **provided no projected element is the absence sentinel
`undefined`** (automatic for `entries()`, whose pair projection is always
an array; for `keys()`/`values()` it requires that no traversed key/value
is `undefined`, since `next()` cuts consumption short at an `undefined`
projection). -/
theorem C8_roundtrip_reverse (m : ReverseIterableMap) (ks : List JSVal) (proj : Proj)
    (fuel : Nat) (hrep : ChainRepr m ks) (hfuel : ks.length ≤ fuel)
    (hnu : ∀ x ∈ ks, projAtKey m._map proj x ≠ JSVal.undef) :
    (IterState.drain m fuel (m._iterableIterator proj none)).reverse =
      IterState.drain m fuel ((m._iterableIterator proj none).reverseIterator) := by
  have hfwd : IterState.drain m fuel (m._iterableIterator proj none)
      = ks.map (projAtKey m._map proj) :=
    drain_forward m proj ks none fuel _ rfl rfl hrep.first_eq hrep.seg hfuel hnu
  have hbwd : IterState.drain m fuel ((m._iterableIterator proj none).reverseIterator)
      = (ks.map (projAtKey m._map proj)).reverse :=
    drain_backward m proj ks none fuel _ rfl rfl hrep.last_eq hrep.seg hfuel hnu
  rw [hfwd, hbwd]

/-- C8 witness: the amended round trip on `{1 ↦ 'a', 2 ↦ undefined}` with
the pair projection (the `entries()` iterator), whose projections are
never `undefined`. -/
theorem C8_witness :
    (IterState.drain sampleMapU 2 (sampleMapU._iterableIterator Proj.pairs none)).reverse =
      IterState.drain sampleMapU 2
        ((sampleMapU._iterableIterator Proj.pairs none).reverseIterator) :=
  C8_roundtrip_reverse sampleMapU [JSVal.num 1, JSVal.num 2] Proj.pairs 2
    sampleMapU_chainRepr (by decide) (by decide)

/-- C9: on a well-formed map with chain order `l ++ k :: r`, fully
consuming `iteratorFor(k)` forward yields exactly the `[key, value]`
pairs of the suffix `k :: r` (k inclusive), and fully consuming
`iteratorFor(k).reverseIterator()` yields exactly the reverse of the
pairs of the prefix `l ++ [k]` (k inclusive). -/
theorem C9_iteratorFor_suffix_prefix (m : ReverseIterableMap) (l r : List JSVal) (k : JSVal)
    (fuel : Nat) (hrep : ChainRepr m (l ++ k :: r))
    (hfuel : (l ++ k :: r).length ≤ fuel) :
    IterState.drain m fuel (m.iteratorFor k)
      = (k :: r).map (fun x => JSVal.arr [x, m.get x]) ∧
    IterState.drain m fuel ((m.iteratorFor k).reverseIterator)
      = ((l ++ [k]).map (fun x => JSVal.arr [x, m.get x])).reverse := by
  have hkin : k ∈ l ++ k :: r := by simp
  have hsome : (mapGet m._map k).isSome = true := (chainRepr_mem_iff m _ hrep k).mpr hkin
  obtain ⟨nd, hnd⟩ := Option.isSome_iff_exists.mp hsome
  have hiter : m.iteratorFor k = m._iterableIterator Proj.pairs (some k) := by
    unfold ReverseIterableMap.iteratorFor
    rw [hnd]
  have hproj : ∀ x ∈ l ++ k :: r, projAtKey m._map Proj.pairs x = JSVal.arr [x, m.get x] :=
    fun x hx => chainRepr_projAtKey_pairs m _ hrep x hx
  have hmem : ∀ x ∈ l ++ [k], x ∈ l ++ k :: r := by
    intro x hx
    rcases List.mem_append.mp hx with h | h
    · exact List.mem_append_left _ h
    · rw [List.mem_singleton] at h
      subst h
      exact hkin
  have hlen := hfuel
  rw [List.length_append, List.length_cons] at hlen
  have hseg := hrep.seg
  rw [segOK_append] at hseg
  obtain ⟨hsegl, hsegkr⟩ := hseg
  constructor
  · rw [hiter]
    rw [drain_forward m Proj.pairs (k :: r) (lastOr l none) fuel _ rfl rfl rfl hsegkr
      (by simp only [List.length_cons]; omega)
      (fun x hx => by rw [hproj x (List.mem_append_right l hx)]; simp)]
    exact List.map_congr_left fun x hx => hproj x (List.mem_append_right l hx)
  · have hsplit : l ++ k :: r = (l ++ [k]) ++ r := by simp
    have hseg2 := hrep.seg
    rw [hsplit, segOK_append] at hseg2
    obtain ⟨hseglk, -⟩ := hseg2
    rw [hiter]
    have hcur :
        (IterState.reverseIterator (m._iterableIterator Proj.pairs (some k))).currentNode
          = lastOr (l ++ [k]) none := by
      rw [lastOr_concat]
      rfl
    rw [drain_backward m Proj.pairs (l ++ [k]) (headOr r none) fuel _ rfl rfl hcur hseglk
      (by simp only [List.length_append, List.length_cons, List.length_nil]; omega)
      (fun x hx => by rw [hproj x (hmem x hx)]; simp)]
    exact congrArg List.reverse (List.map_congr_left fun x hx => hproj x (hmem x hx))

/-- C9 witness: `iteratorFor(1)` on `{1 ↦ 'a', 2 ↦ undefined}` with chain
decomposition `[] ++ 1 :: [2]`: the forward drain is the whole pair
sequence and the reversed drain is just `[[1, 'a']]`. -/
theorem C9_witness :
    IterState.drain sampleMapU 2 (sampleMapU.iteratorFor (JSVal.num 1))
      = ([JSVal.num 1, JSVal.num 2].map (fun x => JSVal.arr [x, sampleMapU.get x])) ∧
    IterState.drain sampleMapU 2 ((sampleMapU.iteratorFor (JSVal.num 1)).reverseIterator)
      = (([] ++ [JSVal.num 1]).map (fun x => JSVal.arr [x, sampleMapU.get x])).reverse :=
  C9_iteratorFor_suffix_prefix sampleMapU [] [JSVal.num 2] (JSVal.num 1) 2
    sampleMapU_chainRepr (by decide)

/-- C10: each array element of the constructor's iterable is inserted via
the append-insert as `element[0] ↦ element[1]`: indices beyond 1 are
ignored and missing indices read as `undefined` (so an array with fewer
than two elements stores `undefined` as the value).  In particular
`new ReverseIterableMap([[1,2,3]])` is exactly the one-entry map
`empty.set(1, 2)` — the element `3` is not stored anywhere — with
`get(1) = 2` and `size = 1`. -/
theorem C10_constructor_element_insertion :
    (∀ (m : ReverseIterableMap) (a rest : List JSVal),
      m.addAll (JSVal.arr a :: rest)
        = (m.set (a.getD 0 JSVal.undef) (a.getD 1 JSVal.undef)).addAll rest) ∧
    (∀ a : List JSVal,
      ReverseIterableMap.fromIterable [JSVal.arr a]
        = Except.ok (ReverseIterableMap.empty.set (a.getD 0 JSVal.undef) (a.getD 1 JSVal.undef))) ∧
    ReverseIterableMap.fromIterable [JSVal.arr [JSVal.num 1, JSVal.num 2, JSVal.num 3]]
      = Except.ok (ReverseIterableMap.empty.set (JSVal.num 1) (JSVal.num 2)) ∧
    (ReverseIterableMap.empty.set (JSVal.num 1) (JSVal.num 2)).get (JSVal.num 1) = JSVal.num 2 ∧
    (ReverseIterableMap.empty.set (JSVal.num 1) (JSVal.num 2)).size = 1 := by
  refine ⟨?_, ?_, rfl, by decide, by decide⟩
  · intro m a rest
    rfl
  · intro a
    rfl
